import Mathlib

/-!
Verification of the kissim comparison-tree core (kissim.comparison.tree):
agglomerative clustering of a kinase distance matrix, mean-distance branch
annotation, rooted binary tree construction, Newick serialization, and the
side annotation table.  The repository snapshot only documents usage
(docs/tutorials/tree.ipynb); the algorithmic module itself is absent, so the
definitions below are modelled from the specification's description of each
component and every claim is settled against this model.  Distances are
modelled as rationals so that the spec's exactness requirements are
meaningful.
-/

namespace Kissim

/-- Modelled from the spec: the error kinds of the pipeline
(InvalidInputError, UnsupportedLinkageError, InvalidLabelError,
MissingAnnotationError); the latter two carry the offending label. -/
inductive KissimError where
  | invalidInputError : KissimError
  | unsupportedLinkageError : KissimError
  | invalidLabelError : String → KissimError
  | missingAnnotationError : String → KissimError
deriving Repr, DecidableEq

/-- Modelled from the spec: a DistanceMatrix as loaded from the tabular
input: an ordered list of entity labels and a row-major table of rational
distances. -/
structure DistanceMatrix where
  labels : List String
  rows : List (List ℚ)
deriving Repr, DecidableEq

instance {ε α : Type} [DecidableEq ε] [DecidableEq α] :
    DecidableEq (Except ε α) := fun
  | .error a, .error b =>
      if h : a = b then .isTrue (by rw [h])
      else .isFalse (fun hh => h (by injection hh))
  | .error _, .ok _ => .isFalse (fun hh => Except.noConfusion hh)
  | .ok _, .error _ => .isFalse (fun hh => Except.noConfusion hh)
  | .ok a, .ok b =>
      if h : a = b then .isTrue (by rw [h])
      else .isFalse (fun hh => h (by injection hh))

/-- Number of entities N of the matrix. -/
def DistanceMatrix.size (m : DistanceMatrix) : Nat := m.labels.length

/-- Entry d[i][j] of the matrix (0 outside the table). -/
def DistanceMatrix.entry (m : DistanceMatrix) (i j : Nat) : ℚ :=
  (m.rows.getD i []).getD j 0

/-- The matrix is a well-shaped symmetric table: N rows of N entries with
d[i][j] = d[j][i]. -/
def DistanceMatrix.symmetric (m : DistanceMatrix) : Prop :=
  m.rows.length = m.size ∧ (∀ r ∈ m.rows, r.length = m.size) ∧
  ∀ i < m.size, ∀ j < m.size, m.entry i j = m.entry j i

/-- All entries of the matrix are non-negative. -/
def DistanceMatrix.nonneg (m : DistanceMatrix) : Prop :=
  ∀ i < m.size, ∀ j < m.size, 0 ≤ m.entry i j

instance (m : DistanceMatrix) : Decidable m.symmetric := by
  unfold DistanceMatrix.symmetric; infer_instance

instance (m : DistanceMatrix) : Decidable m.nonneg := by
  unfold DistanceMatrix.nonneg; infer_instance

/-- Modelled from the spec: the validation the LinkageEngine performs before
clustering: the matrix must be symmetric, contain no negative value, and
have at least 2 entities. -/
def validMatrix (m : DistanceMatrix) : Bool :=
  decide m.symmetric && decide m.nonneg && decide (2 ≤ m.size)

/-- Modelled from the spec: the five supported linkage criteria. -/
inductive Linkage where
  | ward : Linkage
  | complete : Linkage
  | weighted : Linkage
  | average : Linkage
  | centroid : Linkage
deriving Repr, DecidableEq

/-- Modelled from the spec: the entry point's clustering-method
configuration: ward is the default when no method is given; any name other
than the five supported ones fails with UnsupportedLinkageError. -/
def parseLinkage : Option String → Except KissimError Linkage
  | none => .ok .ward
  | some s =>
    if s = "ward" then .ok .ward
    else if s = "complete" then .ok .complete
    else if s = "weighted" then .ok .weighted
    else if s = "average" then .ok .average
    else if s = "centroid" then .ok .centroid
    else .error .unsupportedLinkageError

/-- Modelled from the spec: the Lance-Williams style inter-cluster distance
update rule of each criterion, for clusters A, B (sizes sa, sb) merging into
AB and a third cluster C (size sc).  For the centroid and ward criteria the
engine stores squared distances, on which the Lance-Williams updates are
exact rational functions; minimisation over squared distances selects the
same pairs. -/
def updateRule (L : Linkage) (dac dbc dab : ℚ) (sa sb sc : Nat) : ℚ :=
  match L with
  | .complete => max dac dbc
  | .weighted => (dac + dbc) / 2
  | .average => ((sa : ℚ) * dac + (sb : ℚ) * dbc) / ((sa : ℚ) + (sb : ℚ))
  | .centroid =>
      ((sa : ℚ) * dac + (sb : ℚ) * dbc) / ((sa : ℚ) + (sb : ℚ)) -
        ((sa : ℚ) * (sb : ℚ) * dab) / (((sa : ℚ) + (sb : ℚ)) ^ 2)
  | .ward =>
      (((sa : ℚ) + (sc : ℚ)) * dac + ((sb : ℚ) + (sc : ℚ)) * dbc -
        (sc : ℚ) * dab) / ((sa : ℚ) + (sb : ℚ) + (sc : ℚ))

/-- Sum of d i j over all i in A and j in B (the cross term of the
annotator's incremental update). -/
def crossSum (d : Nat → Nat → ℚ) (A B : List Nat) : ℚ :=
  (A.map (fun i => (B.map (fun j => d i j)).sum)).sum

/-- Sum of d i j over all ordered pairs (i before j) of the list: each
unordered pair of positions is counted once. -/
def pairsSum (d : Nat → Nat → ℚ) : List Nat → ℚ
  | [] => 0
  | x :: xs => (xs.map (fun j => d x j)).sum + pairsSum d xs

/-- Number of pairs of positions of the list, i.e. length choose 2. -/
def pairsCount : List Nat → Nat
  | [] => 0
  | _ :: xs => xs.length + pairsCount xs

/-- Sum of all entries d i j with both i and j drawn from the list. -/
def fullSum (d : Nat → Nat → ℚ) (l : List Nat) : ℚ :=
  (l.map (fun i => (l.map (fun j => d i j)).sum)).sum

/-- Sum of the diagonal entries over the list. -/
def diagSum (d : Nat → Nat → ℚ) (l : List Nat) : ℚ :=
  (l.map (fun i => d i i)).sum


/-- Modelled from the spec: a cluster of the engine's arena: a synthetic
integer identifier plus the original entity indices it contains. -/
structure EngCluster where
  id : Nat
  members : List Nat
deriving Repr, DecidableEq

/-- Modelled from the spec: a MergeEvent records which two cluster
identifiers merged, at what linkage-criterion distance, producing a new
cluster identifier. -/
structure MergeEvent where
  a : Nat
  b : Nat
  dist : ℚ
  nid : Nat
deriving Repr, DecidableEq

/-- Modelled from the spec: the LinkageEngine state: the current clusters,
the inter-cluster distance table keyed by cluster identifier, and the next
fresh identifier. -/
structure EngState where
  clusters : List EngCluster
  dist : Nat → Nat → ℚ
  nextId : Nat

/-- Cluster at position p of the arena (a default for out-of-range access). -/
def clAt (cs : List EngCluster) (p : Nat) : EngCluster := cs.getD p ⟨0, []⟩

/-- First element of the list attaining the minimal value of f (ties keep
the earlier element), none on the empty list. -/
def selectMin (f : Nat × Nat → ℚ) : List (Nat × Nat) → Option (Nat × Nat)
  | [] => none
  | x :: xs =>
    match selectMin f xs with
    | none => some x
    | some y => if f x ≤ f y then some x else some y

/-- All position pairs (p, q) with p < q < n, in lexicographic order. -/
def allPairs (n : Nat) : List (Nat × Nat) :=
  ((List.range n).map (fun p =>
    (List.range n).filterMap (fun q => if p < q then some (p, q) else none))).flatten

/-- Remove the clusters at positions p and q (for p < q) from the arena. -/
def removeTwo (cs : List EngCluster) (p q : Nat) : List EngCluster :=
  (cs.eraseIdx p).eraseIdx (q - 1)

/-- Size of the cluster with identifier i (0 when absent). -/
def sizeOfId (cs : List EngCluster) (i : Nat) : Nat :=
  ((cs.find? (fun c => c.id == i)).map (fun c => c.members.length)).getD 0

/-- The inter-cluster distance of the clusters at a pair of arena
positions. -/
def pairDist (st : EngState) (pq : Nat × Nat) : ℚ :=
  st.dist (clAt st.clusters pq.1).id (clAt st.clusters pq.2).id

/-- Modelled from the spec: one step of the LinkageEngine: select the pair
of distinct clusters at minimal inter-cluster distance (ties broken by the
lowest position pair in lexicographic order), merge them, record the merge
event, and update the distance of the merged cluster to every other cluster
by the criterion's Lance-Williams rule. -/
def engStep (L : Linkage) (st : EngState) : Option (MergeEvent × EngState) :=
  match selectMin (pairDist st) (allPairs st.clusters.length) with
  | none => none
  | some (p, q) =>
    let A := clAt st.clusters p
    let B := clAt st.clusters q
    let dab := st.dist A.id B.id
    let merged : EngCluster := ⟨st.nextId, A.members ++ B.members⟩
    let D : Nat → Nat → ℚ := fun x y =>
      if x = st.nextId then
        if y = st.nextId then 0
        else
          updateRule L (st.dist A.id y) (st.dist B.id y) dab
            A.members.length B.members.length (sizeOfId st.clusters y)
      else if y = st.nextId then
        updateRule L (st.dist x A.id) (st.dist x B.id) dab
          A.members.length B.members.length (sizeOfId st.clusters x)
      else st.dist x y
    some (⟨A.id, B.id, dab, st.nextId⟩,
      ⟨removeTwo st.clusters p q ++ [merged], D, st.nextId + 1⟩)

/-- Run the engine for the given number of merge steps, collecting the
merge events in order. -/
def engineRun (L : Linkage) : Nat → EngState → List MergeEvent × EngState
  | 0, st => ([], st)
  | k + 1, st =>
    match engStep L st with
    | none => ([], st)
    | some (e, st') =>
      let r := engineRun L k st'
      (e :: r.1, r.2)

/-- Initial engine state: one cluster per entity, identifiers 0..N-1,
distances read from the matrix. -/
def initState (m : DistanceMatrix) : EngState :=
  ⟨(List.range m.size).map (fun i => ⟨i, [i]⟩), fun i j => m.entry i j, m.size⟩

/-- Modelled from the spec: the LinkageEngine contract: validate the matrix
(failing with InvalidInputError when it is not symmetric, has a negative
value, or has fewer than 2 entities) and otherwise produce the ordered
sequence of N-1 merge events. -/
def linkage (m : DistanceMatrix) (L : Linkage) : Except KissimError (List MergeEvent) :=
  if validMatrix m then .ok (engineRun L (m.size - 1) (initState m)).1
  else .error .invalidInputError

/-- Modelled from the spec: the BranchAnnotator's per-cluster bookkeeping:
the member leaf indices together with the running sum of the pairwise
original distances inside the cluster and the running pair count. -/
structure AnnCluster where
  id : Nat
  members : List Nat
  sum : ℚ
  cnt : Nat
deriving Repr, DecidableEq

/-- Remove the first element with the given identifier from the list,
returning it together with the remaining list. -/
def pluckId {α : Type} (idOf : α → Nat) (i : Nat) : List α → Option (α × List α)
  | [] => none
  | c :: rest =>
    if idOf c = i then some (c, rest)
    else
      match pluckId idOf i rest with
      | none => none
      | some (x, rest') => some (x, c :: rest')

/-- Modelled from the spec: one BranchAnnotator step: on the merge of A and
B, combine the bookkeeping as sum_AB = sum_A + sum_B + cross_sum(A,B) and
count_AB = count_A + count_B + size_A * size_B. -/
def annStep (d : Nat → Nat → ℚ) (as : List AnnCluster) (e : MergeEvent) :
    Option (AnnCluster × List AnnCluster) :=
  match pluckId AnnCluster.id e.a as with
  | none => none
  | some (A, as₁) =>
    match pluckId AnnCluster.id e.b as₁ with
    | none => none
    | some (B, as₂) =>
      let merged : AnnCluster :=
        ⟨e.nid, A.members ++ B.members,
          A.sum + B.sum + crossSum d A.members B.members,
          A.cnt + B.cnt + A.members.length * B.members.length⟩
      some (merged, as₂ ++ [merged])

/-- Walk the merge history, producing the final cluster table and, for each
merge event in order, the mean distance (sum / count) of the internal node
it creates. -/
def annRun (d : Nat → Nat → ℚ) :
    List AnnCluster → List MergeEvent → Option (List AnnCluster × List ℚ)
  | as, [] => some (as, [])
  | as, e :: evs =>
    match annStep d as e with
    | none => none
    | some (c, as') =>
      match annRun d as' evs with
      | none => none
      | some (asf, ms) => some (asf, (c.sum / (c.cnt : ℚ)) :: ms)

/-- Initial annotator table: one singleton cluster per entity, with zero
running sum and zero pair count. -/
def annInit (n : Nat) : List AnnCluster :=
  (List.range n).map (fun i => ⟨i, [i], 0, 0⟩)

/-- Modelled from the spec: the BranchAnnotator: walk the merge history of
the matrix, computing the mean original pairwise distance of the leaves
under every internal node. -/
def annotate (m : DistanceMatrix) (evs : List MergeEvent) :
    Option (List AnnCluster × List ℚ) :=
  annRun (fun i j => m.entry i j) (annInit m.size) evs

/-- Modelled from the spec: a TreeNode is either a leaf wrapping one label
or an internal node with exactly two ordered children and a mean-distance
branch value. -/
inductive KTree where
  | leaf : String → KTree
  | node : KTree → KTree → ℚ → KTree
deriving Repr, DecidableEq

/-- The leaf labels of the tree, left to right. -/
def leafLabels : KTree → List String
  | .leaf s => [s]
  | .node l r _ => leafLabels l ++ leafLabels r

/-- Number of leaves of the tree. -/
def leafCount : KTree → Nat
  | .leaf _ => 1
  | .node l r _ => leafCount l + leafCount r

/-- Number of internal nodes of the tree. -/
def internalCount : KTree → Nat
  | .leaf _ => 0
  | .node l r _ => internalCount l + internalCount r + 1

/-- A TreeBuilder arena entry: a cluster identifier with the subtree built
for it. -/
structure TCluster where
  id : Nat
  tree : KTree
deriving Repr, DecidableEq

/-- Modelled from the spec: one TreeBuilder step: the merge event's two
clusters become the ordered children of a new internal node carrying the
annotator's mean distance for that event. -/
def treeStep (ts : List TCluster) (e : MergeEvent) (mean : ℚ) : Option (List TCluster) :=
  match pluckId TCluster.id e.a ts with
  | none => none
  | some (A, ts₁) =>
    match pluckId TCluster.id e.b ts₁ with
    | none => none
    | some (B, ts₂) => some (ts₂ ++ [⟨e.nid, .node A.tree B.tree mean⟩])

/-- Replay the merge history (paired with the annotator means) over the
TreeBuilder arena. -/
def treeRun : List TCluster → List (MergeEvent × ℚ) → Option (List TCluster)
  | ts, [] => some ts
  | ts, (e, mn) :: rest =>
    match treeStep ts e mn with
    | none => none
    | some ts' => treeRun ts' rest

/-- The empty string, used as the out-of-range label default. -/
def emptyStr : String := ""

/-- Initial TreeBuilder arena: one leaf per entity label. -/
def treeInit (labels : List String) : List TCluster :=
  (List.range labels.length).map (fun i => ⟨i, .leaf (labels.getD i emptyStr)⟩)

/-- Modelled from the spec: the TreeBuilder: map the merge events plus the
branch annotations to the rooted binary tree; the final event's node is the
root. -/
def buildTree (labels : List String) (evs : List MergeEvent) (means : List ℚ) :
    Option KTree :=
  match treeRun (treeInit labels) (evs.zip means) with
  | some [t] => some t.tree
  | _ => none

/-- Modelled from the spec: a label needs Newick quoting when it contains
whitespace, parentheses, commas, colons, or a single quote. -/
def needsQuote (s : String) : Bool :=
  s.data.any (fun c =>
    c == ' ' || c == '\t' || c == '\n' || c == '(' || c == ')' ||
      c == ',' || c == ':' || c == '\'')

/-- Double every single quote of the character list (the internal escaping
of a quoted Newick label). -/
def dq : List Char → List Char
  | [] => []
  | c :: cs => if c = '\'' then c :: c :: dq cs else c :: dq cs

/-- The single-quote character. -/
def quoteChar : Char := '\''

/-- Modelled from the spec: Newick label escaping: a label that needs
quoting is wrapped in single quotes with internal single quotes doubled;
other labels are emitted verbatim. -/
def escapeLabel (s : String) : String :=
  if needsQuote s then String.mk (quoteChar :: dq s.data ++ [quoteChar]) else s

/-- Parse the body of a quoted Newick label (everything after the opening
quote): doubled quotes denote a literal quote, a lone quote must close the
label at the very end of the token. -/
def parseQuoted : List Char → Option (List Char)
  | [] => none
  | c :: cs =>
    if c = '\'' then
      match cs with
      | [] => some []
      | c2 :: cs2 =>
        if c2 = '\'' then (parseQuoted cs2).map (fun r => '\'' :: r)
        else none
    else (parseQuoted cs).map (fun r => c :: r)

/-- Parse one Newick label token back to the label it denotes: a quoted
token is unescaped, an unquoted token must contain no special character. -/
def parseLabelChars (cs : List Char) : Option (List Char) :=
  match cs with
  | [] => none
  | c :: rest =>
    if c = '\'' then parseQuoted rest
    else
      if cs.any (fun ch =>
          ch == ' ' || ch == '\t' || ch == '\n' || ch == '(' || ch == ')' ||
            ch == ',' || ch == ':' || ch == '\'') then none
      else some cs

/-- String-level wrapper of the label token parser. -/
def parseLabelStr (s : String) : Option String :=
  (parseLabelChars s.data).map String.mk

/-- Modelled from the spec: serialize one label, failing with
InvalidLabelError when the escaped form would not reparse to the identical
label (the unambiguous round-trip check). -/
def serLabel (s : String) : Except KissimError String :=
  let esc := escapeLabel s
  if parseLabelStr esc = some s then .ok esc else .error (.invalidLabelError s)

/-- Zero-pad a natural number to six digits. -/
def pad6 (k : Nat) : String :=
  let s := toString k
  String.mk (List.replicate (6 - s.length) '0') ++ s

/-- Modelled from the spec: fixed-point formatting of a branch length with
six fractional digits and no scientific notation (value truncated toward
zero). -/
def fmtRat (q : ℚ) : String :=
  let t : Int := q.num * 1000000 / (q.den : Int)
  let ip := t / 1000000
  let fp := (t % 1000000).natAbs
  let dot := "."
  toString ip ++ dot ++ pad6 fp

/-- Modelled from the spec: depth-first Newick rendering of a non-root
subtree: a leaf renders as label:length with the parent's mean as edge
length; an internal node renders as (child,child):length with its own mean
distance. -/
def serTree : KTree → ℚ → Except KissimError String
  | .leaf s, plen => do
      let l ← serLabel s
      let colon := ":"
      .ok (l ++ colon ++ fmtRat plen)
  | .node a b len, _ => do
      let sa ← serTree a len
      let sb ← serTree b len
      let lpar := "("
      let comma := ","
      let rtail := "):"
      .ok (lpar ++ sa ++ comma ++ sb ++ rtail ++ fmtRat len)

/-- Modelled from the spec: Newick rendering of the whole tree: the root
carries no trailing branch length and the string ends with a semicolon. -/
def serializeNewick : KTree → Except KissimError String
  | .leaf s => do
      let l ← serLabel s
      let semi := ";"
      .ok (l ++ semi)
  | .node a b len => do
      let sa ← serTree a len
      let sb ← serTree b len
      let lpar := "("
      let comma := ","
      let rtail := ");"
      .ok (lpar ++ sa ++ comma ++ sb ++ rtail)

/-- Modelled from the spec: an AnnotationRecord: a label with its kinase
group and family metadata. -/
structure AnnotationRecord where
  label : String
  group : String
  family : String
deriving Repr, DecidableEq

/-- Modelled from the spec: the AnnotationMapper: join every matrix label
(exact, case-sensitive match) to its metadata record, failing with
MissingAnnotationError naming the first label that has no record. -/
def annotationMapper :
    List String → List AnnotationRecord → Except KissimError (List (String × String × String))
  | [], _ => .ok []
  | l :: ls, recs =>
    match recs.find? (fun r => r.label == l) with
    | none => .error (.missingAnnotationError l)
    | some r => (annotationMapper ls recs).map (fun t => (l, r.group, r.family) :: t)

/-- Modelled from the spec: the pipeline up to the finished TreeNode graph:
parse the method name, validate and cluster, annotate the merge history,
and build the tree. -/
def pipelineTree (m : DistanceMatrix) (mo : Option String) : Except KissimError KTree := do
  let L ← parseLinkage mo
  let evs ← linkage m L
  match annotate m evs with
  | none => .error .invalidInputError
  | some (_, means) =>
    match buildTree m.labels evs means with
    | none => .error .invalidInputError
    | some t => .ok t

/-- Modelled from the spec: the full pipeline from the distance matrix and
method name to the Newick output string. -/
def pipeline (m : DistanceMatrix) (mo : Option String) : Except KissimError String := do
  let t ← pipelineTree m mo
  serializeNewick t

/-- Modelled from the spec and the tutorial notebook: the annotation table
rows: a tab-separated header kinase.klifs_name, kinase.group, kinase.family
followed by one record per leaf label. -/
def annotationTable (labels : List String) (recs : List AnnotationRecord) :
    Except KissimError (List (List String)) :=
  (annotationMapper labels recs).map (fun t =>
    ["kinase.klifs_name", "kinase.group", "kinase.family"] ::
      t.map (fun r => [r.1, r.2.1, r.2.2]))

/-- Render the annotation table rows as tab-separated lines. -/
def renderTable (rows : List (List String)) : String :=
  let tab := "\t"
  let nl := "\n"
  String.intercalate nl (rows.map (fun r => String.intercalate tab r))

/-- Modelled from the spec and the tutorial notebook: tree.from_file's
computational core: produce the Newick string and the rendered annotation
table for the matrix. -/
def fromFile (m : DistanceMatrix) (recs : List AnnotationRecord) (mo : Option String) :
    Except KissimError (String × String) := do
  let nw ← pipeline m mo
  let tbl ← annotationTable m.labels recs
  .ok (nw, renderTable tbl)

/-- Strict lexicographic order on position pairs. -/
def pairLt (x y : Nat × Nat) : Prop :=
  x.1 < y.1 ∨ (x.1 = y.1 ∧ x.2 < y.2)

/-- The multiset of original entity indices spread over the arena. -/
def membersJoin (cs : List EngCluster) : List Nat :=
  (cs.map (fun c => c.members)).flatten

/-- The engine's bookkeeping invariant: cluster identifiers are distinct and
all below the next fresh identifier. -/
def EngInv (st : EngState) : Prop :=
  (st.clusters.map (fun c => c.id)).Nodup ∧ ∀ c ∈ st.clusters, c.id < st.nextId

/-- The coupling between an engine cluster and the annotator's bookkeeping
for it: same identifier and members, with the running sum and count equal
to the true pairwise sum and pair count over the members. -/
def RA (d : Nat → Nat → ℚ) (c : EngCluster) (a : AnnCluster) : Prop :=
  a.id = c.id ∧ a.members = c.members ∧
    a.sum = pairsSum d c.members ∧ a.cnt = pairsCount c.members

/-- The direct computation of the claim: the sum of all off-diagonal
entries of the matrix. -/
def directOffDiagSum (m : DistanceMatrix) : ℚ :=
  ((List.range m.size).map (fun i =>
    ((List.range m.size).map (fun j => if i = j then 0 else m.entry i j)).sum)).sum

/-- The direct computation of the claim: the arithmetic mean of all
pairwise off-diagonal entries of the matrix. -/
def directRootMean (m : DistanceMatrix) : ℚ :=
  directOffDiagSum m / ((m.size * (m.size - 1) : Nat) : ℚ)

/-- The BranchAnnotator's incrementally computed mean-distance value at the
root: run the LinkageEngine, walk the merge history and read off the mean
of the one remaining cluster. -/
def annotRootMean (m : DistanceMatrix) (L : Linkage) : Option ℚ :=
  match linkage m L with
  | .error _ => none
  | .ok evs =>
    match annotate m evs with
    | some ([rc], _) => some (rc.sum / (rc.cnt : ℚ))
    | _ => none

/-- The coupling between an engine cluster and the TreeBuilder's subtree
for it: same identifier, and the subtree's leaves are exactly the cluster's
members rendered through the label table. -/
def RT (labels : List String) (c : EngCluster) (t : TCluster) : Prop :=
  t.id = c.id ∧ leafLabels t.tree = c.members.map (fun i => labels.getD i emptyStr)

/-! ### Concrete example inputs -/

/-- A valid 2-entity distance matrix. -/
def mEx2 : DistanceMatrix := ⟨["X1", "Y2"], [[0, 3], [3, 0]]⟩

/-- A valid 3-entity distance matrix. -/
def mEx3 : DistanceMatrix := ⟨["A", "B", "C"], [[0, 1, 2], [1, 0, 4], [2, 4, 0]]⟩

/-- An asymmetric (invalid) matrix. -/
def mBad : DistanceMatrix := ⟨["A", "B"], [[0, 1], [2, 0]]⟩

/-- Metadata records covering the labels of mEx2. -/
def recsEx : List AnnotationRecord := [⟨"X1", "G1", "F1"⟩, ⟨"Y2", "G2", "F2"⟩]

theorem crossSum_nil_left (d : Nat → Nat → ℚ) (B : List Nat) :
    crossSum d [] B = 0 := rfl

theorem crossSum_cons_left (d : Nat → Nat → ℚ) (x : Nat) (A B : List Nat) :
    crossSum d (x :: A) B = (B.map (fun j => d x j)).sum + crossSum d A B := by
  simp [crossSum]

theorem pairsSum_append (d : Nat → Nat → ℚ) (A B : List Nat) :
    pairsSum d (A ++ B) = pairsSum d A + crossSum d A B + pairsSum d B := by
  induction A with
  | nil => simp [pairsSum, crossSum]
  | cons x A ih =>
      simp only [List.cons_append, pairsSum, ih, crossSum_cons_left,
        List.append_eq, List.map_append, List.sum_append]
      ring

theorem pairsCount_append (A B : List Nat) :
    pairsCount (A ++ B) = pairsCount A + A.length * B.length + pairsCount B := by
  induction A with
  | nil => simp [pairsCount]
  | cons x A ih =>
      simp only [List.cons_append, pairsCount, ih, List.append_eq,
        List.length_append, List.length_cons]
      ring

theorem two_mul_pairsCount (l : List Nat) :
    2 * pairsCount l = l.length * (l.length - 1) := by
  induction l with
  | nil => simp [pairsCount]
  | cons x xs ih =>
      simp only [pairsCount, List.length_cons]
      have : 2 * (xs.length + pairsCount xs) = 2 * xs.length + 2 * pairsCount xs := by ring
      rw [this, ih]
      cases xs with
      | nil => simp
      | cons y ys => simp only [List.length_cons, Nat.add_sub_cancel]; ring

theorem two_mul_pairsSum (d : Nat → Nat → ℚ) (l : List Nat)
    (hsym : ∀ i ∈ l, ∀ j ∈ l, d i j = d j i) :
    2 * pairsSum d l + diagSum d l = fullSum d l := by
  induction l with
  | nil => simp [pairsSum, diagSum, fullSum]
  | cons x xs ih =>
      have hsym' : ∀ i ∈ xs, ∀ j ∈ xs, d i j = d j i := fun i hi j hj =>
        hsym i (List.mem_cons_of_mem _ hi) j (List.mem_cons_of_mem _ hj)
      have hrow : ∀ i ∈ xs, d i x = d x i := fun i hi =>
        hsym i (List.mem_cons_of_mem _ hi) x (List.mem_cons_self _ _)
      simp only [pairsSum, diagSum, fullSum, List.map_cons, List.sum_cons]
      have hsplit :
          (xs.map (fun i => d i x + (xs.map (fun j => d i j)).sum)).sum =
            (xs.map (fun i => d i x)).sum +
              (xs.map (fun i => (xs.map (fun j => d i j)).sum)).sum := by
        induction xs with
        | nil => simp
        | cons y ys ihy => simp [ihy]; ring
      have hcol : (xs.map (fun i => d i x)).sum = (xs.map (fun j => d x j)).sum := by
        have : xs.map (fun i => d i x) = xs.map (fun i => d x i) :=
          List.map_congr_left hrow
        rw [this]
      calc 2 * ((xs.map (fun j => d x j)).sum + pairsSum d xs) +
            (d x x + diagSum d xs)
          = d x x + (xs.map (fun j => d x j)).sum +
              ((xs.map (fun j => d x j)).sum +
                (2 * pairsSum d xs + diagSum d xs)) := by ring
        _ = d x x + (xs.map (fun j => d x j)).sum +
              ((xs.map (fun i => d i x)).sum + fullSum d xs) := by
              rw [ih hsym', hcol]
        _ = d x x + (xs.map (fun j => d x j)).sum +
              (xs.map (fun i => d i x + (xs.map (fun j => d i j)).sum)).sum := by
              rw [hsplit]; simp only [fullSum]

theorem fullSum_perm (d : Nat → Nat → ℚ) {l l' : List Nat} (h : l.Perm l') :
    fullSum d l = fullSum d l' := by
  unfold fullSum
  have hinner : ∀ i : Nat, (l.map (fun j => d i j)).sum = (l'.map (fun j => d i j)).sum :=
    fun i => (h.map (fun j => d i j)).sum_eq
  calc (l.map (fun i => (l.map (fun j => d i j)).sum)).sum
      = (l.map (fun i => (l'.map (fun j => d i j)).sum)).sum := by
        exact congrArg List.sum (List.map_congr_left (fun i _ => hinner i))
    _ = (l'.map (fun i => (l'.map (fun j => d i j)).sum)).sum :=
        (h.map _).sum_eq

theorem diagSum_perm (d : Nat → Nat → ℚ) {l l' : List Nat} (h : l.Perm l') :
    diagSum d l = diagSum d l' := (h.map _).sum_eq

theorem diagSum_eq_zero (d : Nat → Nat → ℚ) (l : List Nat)
    (h : ∀ i ∈ l, d i i = 0) : diagSum d l = 0 := by
  unfold diagSum
  induction l with
  | nil => simp
  | cons x xs ih =>
      simp only [List.map_cons, List.sum_cons]
      rw [h x (List.mem_cons_self _ _), ih (fun i hi => h i (List.mem_cons_of_mem _ hi))]
      ring

/-! ### Generic list helpers -/

theorem forall₂_map_eq {α β γ : Type} {R : α → β → Prop} {f : α → γ} {g : β → γ}
    (hfg : ∀ a b, R a b → f a = g b) :
    ∀ {l₁ : List α} {l₂ : List β}, List.Forall₂ R l₁ l₂ → l₁.map f = l₂.map g := by
  intro l₁ l₂ h
  induction h with
  | nil => rfl
  | cons hab _ ih => simp only [List.map_cons, hfg _ _ hab, ih]

theorem forall₂_append_right {α β : Type} {R : α → β → Prop} :
    ∀ {l₁ u₁ : List α} {l₂ u₂ : List β}, List.Forall₂ R l₁ l₂ →
      List.Forall₂ R u₁ u₂ → List.Forall₂ R (l₁ ++ u₁) (l₂ ++ u₂) := by
  intro l₁ u₁ l₂ u₂ h hu
  induction h with
  | nil => simpa using hu
  | cons hab _ ih => exact List.Forall₂.cons hab ih

theorem forall₂_eraseIdx {α β : Type} {R : α → β → Prop} :
    ∀ {l₁ : List α} {l₂ : List β} (k : Nat), List.Forall₂ R l₁ l₂ →
      List.Forall₂ R (l₁.eraseIdx k) (l₂.eraseIdx k) := by
  intro l₁ l₂ k h
  induction h generalizing k with
  | nil => simp [List.eraseIdx]
  | cons hab htail ih =>
      cases k with
      | zero => simpa using htail
      | succ k =>
          simp only [List.eraseIdx_cons_succ]
          exact List.Forall₂.cons hab (ih k)

theorem forall₂_map_map {α β γ : Type} {R : β → γ → Prop} (f : α → β) (g : α → γ)
    {l : List α} (h : ∀ x ∈ l, R (f x) (g x)) :
    List.Forall₂ R (l.map f) (l.map g) := by
  induction l with
  | nil => simp
  | cons x xs ih =>
      simp only [List.map_cons, List.forall₂_cons]
      exact ⟨h x (List.mem_cons_self _ _),
        ih (fun y hy => h y (List.mem_cons_of_mem _ hy))⟩

theorem perm_cons_eraseIdx {α : Type} :
    ∀ (l : List α) (i : Nat) (h : i < l.length),
      l.Perm (l.get ⟨i, h⟩ :: l.eraseIdx i) := by
  intro l
  induction l with
  | nil => intro i h; simp at h
  | cons c rest ih =>
      intro i h
      cases i with
      | zero => simp
      | succ i =>
          have hi : i < rest.length := by simpa using h
          have h1 : (c :: rest).get ⟨i + 1, h⟩ = rest.get ⟨i, hi⟩ := rfl
          rw [h1, List.eraseIdx_cons_succ]
          exact ((ih i hi).cons c).trans (List.Perm.swap _ _ _)

theorem get_eraseIdx_of_ge {α : Type} (l : List α) (p j : Nat)
    (h : j < (l.eraseIdx p).length) (hj : p ≤ j) (hb : j + 1 < l.length) :
    (l.eraseIdx p).get ⟨j, h⟩ = l.get ⟨j + 1, hb⟩ := by
  simp only [List.get_eq_getElem, List.getElem_eraseIdx]
  rw [dif_neg (Nat.not_lt.2 hj)]

/-! ### Properties of the pair enumeration and the minimum selection -/


theorem mem_allPairs {n : Nat} {x : Nat × Nat} :
    x ∈ allPairs n ↔ x.1 < x.2 ∧ x.2 < n := by
  obtain ⟨p, q⟩ := x
  constructor
  · intro hmem
    rw [allPairs, List.mem_flatten] at hmem
    obtain ⟨l, hl, hx⟩ := hmem
    rw [List.mem_map] at hl
    obtain ⟨p', _, rfl⟩ := hl
    rw [List.mem_filterMap] at hx
    obtain ⟨q', hq', hif⟩ := hx
    rw [List.mem_range] at hq'
    by_cases hlt : p' < q'
    · rw [if_pos hlt] at hif
      injection hif with h1
      injection h1 with e1 e2
      subst e1; subst e2
      exact ⟨hlt, hq'⟩
    · rw [if_neg hlt] at hif; exact absurd hif (by simp)
  · rintro ⟨hpq, hq⟩
    rw [allPairs, List.mem_flatten]
    refine ⟨_, List.mem_map.2 ⟨p, List.mem_range.2 (lt_trans hpq hq), rfl⟩, ?_⟩
    rw [List.mem_filterMap]
    exact ⟨q, List.mem_range.2 hq, by rw [if_pos hpq]⟩

theorem allPairs_sorted (n : Nat) : List.Pairwise pairLt (allPairs n) := by
  unfold allPairs
  rw [List.pairwise_flatten]
  constructor
  · intro l hl
    rw [List.mem_map] at hl
    obtain ⟨p, _, rfl⟩ := hl
    refine List.Pairwise.filterMap _ ?_ (List.pairwise_lt_range n)
    intro a a' haa' b hb b' hb'
    by_cases h1 : p < a
    · by_cases h2 : p < a'
      · rw [if_pos h1] at hb; rw [if_pos h2] at hb'
        rw [Option.mem_some_iff] at hb hb'
        subst hb; subst hb'
        exact Or.inr ⟨rfl, haa'⟩
      · rw [if_neg h2] at hb'; exact absurd hb' (by simp)
    · rw [if_neg h1] at hb; exact absurd hb (by simp)
  · rw [List.pairwise_map]
    refine List.Pairwise.imp_of_mem ?_ (List.pairwise_lt_range n)
    intro a b _ _ hab x hx y hy
    rw [List.mem_filterMap] at hx hy
    obtain ⟨qa, _, hqa⟩ := hx
    obtain ⟨qb, _, hqb⟩ := hy
    have hxa : x.1 = a := by
      by_cases h : a < qa
      · rw [if_pos h] at hqa; injection hqa with h'; rw [← h']
      · rw [if_neg h] at hqa; exact absurd hqa (by simp)
    have hyb : y.1 = b := by
      by_cases h : b < qb
      · rw [if_pos h] at hqb; injection hqb with h'; rw [← h']
      · rw [if_neg h] at hqb; exact absurd hqb (by simp)
    exact Or.inl (by rw [hxa, hyb]; exact hab)

theorem selectMin_cons_isSome (f : Nat × Nat → ℚ) (c : Nat × Nat) (rest : List (Nat × Nat)) :
    ∃ x, selectMin f (c :: rest) = some x := by
  show ∃ x,
    (match selectMin f rest with
      | none => some c
      | some y => if f c ≤ f y then some c else some y) = some x
  cases selectMin f rest with
  | none => exact ⟨c, rfl⟩
  | some y =>
      by_cases h : f c ≤ f y
      · exact ⟨c, by simp only [if_pos h]⟩
      · exact ⟨y, by simp only [if_neg h]⟩

theorem selectMin_mem {f : Nat × Nat → ℚ} :
    ∀ {l : List (Nat × Nat)} {x}, selectMin f l = some x → x ∈ l := by
  intro l
  induction l with
  | nil => intro x h; simp [selectMin] at h
  | cons c rest ih =>
      intro x h
      unfold selectMin at h
      split at h
      · injection h with h'
        exact h' ▸ List.mem_cons_self _ _
      · rename_i y hrest
        split at h
        · injection h with h'
          exact h' ▸ List.mem_cons_self _ _
        · injection h with h'
          exact h' ▸ List.mem_cons_of_mem _ (ih hrest)

theorem selectMin_le {f : Nat × Nat → ℚ} :
    ∀ {l : List (Nat × Nat)} {x}, selectMin f l = some x → ∀ y ∈ l, f x ≤ f y := by
  intro l
  induction l with
  | nil => intro x h; simp [selectMin] at h
  | cons c rest ih =>
      intro x h y hy
      unfold selectMin at h
      split at h
      · rename_i hrest
        injection h with h'
        subst h'
        cases rest with
        | nil =>
            rcases List.mem_singleton.1 hy with rfl
            exact le_refl _
        | cons c2 r2 =>
            obtain ⟨z, hz⟩ := selectMin_cons_isSome f c2 r2
            rw [hz] at hrest; exact absurd hrest (by simp)
      · rename_i b hrest
        rcases List.mem_cons.1 hy with rfl | hy'
        · split at h
          · injection h with h'; subst h'; exact le_refl _
          · rename_i hle
            injection h with h'; subst h'
            exact le_of_lt (lt_of_not_le hle)
        · have hby : f b ≤ f y := ih hrest y hy'
          split at h
          · rename_i hle
            injection h with h'; subst h'
            exact le_trans hle hby
          · injection h with h'; subst h'; exact hby

theorem selectMin_first {f : Nat × Nat → ℚ} :
    ∀ {l : List (Nat × Nat)} {x}, selectMin f l = some x →
      ∃ l₁ l₂, l = l₁ ++ x :: l₂ ∧ ∀ y ∈ l₁, f x < f y := by
  intro l
  induction l with
  | nil => intro x h; simp [selectMin] at h
  | cons c rest ih =>
      intro x h
      unfold selectMin at h
      split at h
      · injection h with h'
        subst h'
        exact ⟨[], rest, rfl, by simp⟩
      · rename_i b hrest
        split at h
        · injection h with h'; subst h'
          exact ⟨[], rest, rfl, by simp⟩
        · rename_i hle
          injection h with h'; subst h'
          obtain ⟨l₁, l₂, rfl, hmin⟩ := ih hrest
          refine ⟨c :: l₁, l₂, rfl, ?_⟩
          intro y hy
          rcases List.mem_cons.1 hy with rfl | hy'
          · exact lt_of_not_le hle
          · exact hmin y hy'

theorem selectMin_tie_lex {f : Nat × Nat → ℚ} {l : List (Nat × Nat)} {x : Nat × Nat}
    (hp : List.Pairwise pairLt l) (h : selectMin f l = some x) :
    ∀ y ∈ l, f y = f x → x = y ∨ pairLt x y := by
  obtain ⟨l₁, l₂, rfl, hmin⟩ := selectMin_first h
  intro y hy hfy
  rcases List.mem_append.1 hy with h1 | h2
  · exact absurd hfy (ne_of_gt (hmin y h1))
  · rcases List.mem_cons.1 h2 with rfl | h2'
    · exact Or.inl rfl
    · rw [List.pairwise_append] at hp
      have := (List.pairwise_cons.1 hp.2.1).1
      exact Or.inr (this y h2')

/-! ### Engine step characterization and invariants -/

theorem engStep_spec {L : Linkage} {st : EngState} {e : MergeEvent} {st' : EngState}
    (h : engStep L st = some (e, st')) :
    ∃ p q, selectMin (pairDist st) (allPairs st.clusters.length) = some (p, q) ∧
      p < q ∧ q < st.clusters.length ∧
      e = ⟨(clAt st.clusters p).id, (clAt st.clusters q).id,
            st.dist (clAt st.clusters p).id (clAt st.clusters q).id, st.nextId⟩ ∧
      st'.clusters = removeTwo st.clusters p q ++
        [⟨st.nextId, (clAt st.clusters p).members ++ (clAt st.clusters q).members⟩] ∧
      st'.nextId = st.nextId + 1 ∧
      ∀ y, y ≠ st.nextId →
        st'.dist st.nextId y =
          updateRule L (st.dist (clAt st.clusters p).id y)
            (st.dist (clAt st.clusters q).id y)
            (st.dist (clAt st.clusters p).id (clAt st.clusters q).id)
            (clAt st.clusters p).members.length (clAt st.clusters q).members.length
            (sizeOfId st.clusters y) := by
  unfold engStep at h
  split at h
  · exact absurd h (by simp)
  · rename_i p q hsel
    have hmem := selectMin_mem hsel
    rw [mem_allPairs] at hmem
    injection h with h1
    rw [Prod.mk.injEq] at h1
    obtain ⟨he, hst⟩ := h1
    subst he; subst hst
    refine ⟨p, q, hsel, hmem.1, hmem.2, rfl, rfl, rfl, ?_⟩
    intro y hy
    show (if st.nextId = st.nextId then
        if y = st.nextId then (0 : ℚ)
        else updateRule L _ _ _ _ _ _
      else _) = _
    rw [if_pos rfl, if_neg hy]

theorem engStep_of_two {L : Linkage} {st : EngState} (h2 : 2 ≤ st.clusters.length) :
    ∃ e st', engStep L st = some (e, st') := by
  have hmem : ((0, 1) : Nat × Nat) ∈ allPairs st.clusters.length :=
    mem_allPairs.2 ⟨Nat.zero_lt_one, h2⟩
  obtain ⟨x, hx⟩ : ∃ x, selectMin (pairDist st) (allPairs st.clusters.length) = some x := by
    cases hAP : allPairs st.clusters.length with
    | nil => rw [hAP] at hmem; simp at hmem
    | cons c rest => exact selectMin_cons_isSome _ c rest
  obtain ⟨p, q⟩ := x
  have hs : (engStep L st).isSome := by
    unfold engStep
    rw [hx]
    rfl
  obtain ⟨pair, hpair⟩ := Option.isSome_iff_exists.1 hs
  exact ⟨pair.1, pair.2, by rw [hpair]⟩

theorem removeTwo_length (cs : List EngCluster) (p q : Nat)
    (hpq : p < q) (hq : q < cs.length) :
    (removeTwo cs p q).length + 2 = cs.length := by
  unfold removeTwo
  have hp : p < cs.length := lt_trans hpq hq
  have h1 : (cs.eraseIdx p).length = cs.length - 1 := by
    rw [List.length_eraseIdx, if_pos hp]
  have h2 : q - 1 < (cs.eraseIdx p).length := by omega
  rw [List.length_eraseIdx, if_pos h2, h1]
  omega

theorem engStep_length {L : Linkage} {st : EngState} {e : MergeEvent} {st' : EngState}
    (h : engStep L st = some (e, st')) :
    st'.clusters.length + 1 = st.clusters.length := by
  obtain ⟨p, q, _, hpq, hq, _, hcl, _, _⟩ := engStep_spec h
  rw [hcl, List.length_append]
  have := removeTwo_length st.clusters p q hpq hq
  simp only [List.length_singleton]
  omega

theorem clusters_perm_removeTwo (cs : List EngCluster) (p q : Nat)
    (hpq : p < q) (hq : q < cs.length) :
    cs.Perm (clAt cs p :: clAt cs q :: removeTwo cs p q) := by
  have hp : p < cs.length := lt_trans hpq hq
  have hq1 : q - 1 < (cs.eraseIdx p).length := by
    rw [List.length_eraseIdx, if_pos hp]; omega
  have hc1 : clAt cs p = cs.get ⟨p, hp⟩ := by
    unfold clAt
    rw [List.getD_eq_getElem _ _ hp]
    simp [List.get_eq_getElem]
  have hgq : (cs.eraseIdx p).get ⟨q - 1, hq1⟩ = cs.get ⟨q, hq⟩ := by
    rw [get_eraseIdx_of_ge cs p (q - 1) hq1 (by omega) (by omega)]
    congr 1
    simp only [Fin.mk.injEq]
    omega
  have hc2 : clAt cs q = cs.get ⟨q, hq⟩ := by
    unfold clAt
    rw [List.getD_eq_getElem _ _ hq]
    simp [List.get_eq_getElem]
  have key1 := perm_cons_eraseIdx cs p hp
  have key2 := perm_cons_eraseIdx (cs.eraseIdx p) (q - 1) hq1
  rw [hgq] at key2
  rw [hc1, hc2]
  exact key1.trans ((key2).cons _)


theorem engStep_membersJoin {L : Linkage} {st : EngState} {e : MergeEvent} {st' : EngState}
    (h : engStep L st = some (e, st')) :
    (membersJoin st'.clusters).Perm (membersJoin st.clusters) := by
  obtain ⟨p, q, _, hpq, hq, _, hcl, _, _⟩ := engStep_spec h
  rw [hcl]
  have hper := clusters_perm_removeTwo st.clusters p q hpq hq
  have hflat := (hper.map (fun c => c.members)).flatten
  have h1 : membersJoin (removeTwo st.clusters p q ++
      [⟨st.nextId, (clAt st.clusters p).members ++ (clAt st.clusters q).members⟩]) =
      membersJoin (removeTwo st.clusters p q) ++
        ((clAt st.clusters p).members ++ (clAt st.clusters q).members) := by
    simp [membersJoin]
  rw [h1]
  have h2 : membersJoin (clAt st.clusters p :: clAt st.clusters q ::
      removeTwo st.clusters p q) =
      ((clAt st.clusters p).members ++ (clAt st.clusters q).members) ++
        membersJoin (removeTwo st.clusters p q) := by
    simp [membersJoin]
  refine List.Perm.trans List.perm_append_comm ?_
  rw [← h2]
  exact hflat.symm


theorem removeTwo_sublist (cs : List EngCluster) (p q : Nat) :
    (removeTwo cs p q).Sublist cs :=
  (List.eraseIdx_sublist _ _).trans (List.eraseIdx_sublist _ _)

theorem engStep_inv {L : Linkage} {st : EngState} {e : MergeEvent} {st' : EngState}
    (hinv : EngInv st) (h : engStep L st = some (e, st')) : EngInv st' := by
  obtain ⟨p, q, _, hpq, hq, _, hcl, hnid, _⟩ := engStep_spec h
  have hsub := removeTwo_sublist st.clusters p q
  constructor
  · rw [hcl, List.map_append]
    rw [List.nodup_append]
    refine ⟨(hsub.map _).nodup hinv.1, by simp, ?_⟩
    intro a ha hb
    simp only [List.map_cons, List.map_nil, List.mem_singleton] at hb
    subst hb
    rw [List.mem_map] at ha
    obtain ⟨c, hc, hca⟩ := ha
    have := hinv.2 c (hsub.mem hc)
    omega
  · intro c hc
    rw [hcl] at hc
    rcases List.mem_append.1 hc with hr | hm
    · have := hinv.2 c (hsub.mem hr)
      omega
    · rcases List.mem_singleton.1 hm with rfl
      rw [hnid]
      show st.nextId < st.nextId + 1
      omega

/-! ### Lookup by identifier and the annotator simulation -/

theorem clAt_eq (cs : List EngCluster) (p : Nat) (hp : p < cs.length) :
    clAt cs p = cs.get ⟨p, hp⟩ := by
  unfold clAt
  rw [List.getD_eq_getElem _ _ hp]
  simp [List.get_eq_getElem]

theorem pluckId_pos {α : Type} (idOf : α → Nat) :
    ∀ (as : List α) (p : Nat) (hp : p < as.length),
      (as.map idOf).Nodup →
      pluckId idOf (idOf (as.get ⟨p, hp⟩)) as =
        some (as.get ⟨p, hp⟩, as.eraseIdx p) := by
  intro as
  induction as with
  | nil => intro p hp; simp at hp
  | cons c rest ih =>
      intro p hp hnd
      rw [List.map_cons, List.nodup_cons] at hnd
      cases p with
      | zero =>
          show pluckId idOf (idOf c) (c :: rest) = some (c, rest)
          unfold pluckId
          rw [if_pos rfl]
      | succ p =>
          have hp' : p < rest.length := by simpa using hp
          have hget : (c :: rest).get ⟨p + 1, hp⟩ = rest.get ⟨p, hp'⟩ := rfl
          have hne : ¬idOf c = idOf (rest.get ⟨p, hp'⟩) := by
            intro he
            exact hnd.1 (he ▸ List.mem_map.2 ⟨_, List.get_mem _ _ _, rfl⟩)
          rw [hget, List.eraseIdx_cons_succ]
          unfold pluckId
          rw [if_neg hne, ih p hp' hnd.2]


theorem annSim_step (d : Nat → Nat → ℚ) {L : Linkage} {st st' : EngState}
    {e : MergeEvent} {as : List AnnCluster}
    (hinv : EngInv st) (hF : List.Forall₂ (RA d) st.clusters as)
    (h : engStep L st = some (e, st')) :
    ∃ c as', annStep d as e = some (c, as') ∧
      List.Forall₂ (RA d) st'.clusters as' := by
  obtain ⟨p, q, _, hpq, hq, he, hcl, _, _⟩ := engStep_spec h
  have hlen := hF.length_eq
  have hp : p < st.clusters.length := lt_trans hpq hq
  have hpa : p < as.length := by omega
  have hqa : q < as.length := by omega
  have hgets := (List.forall₂_iff_get.1 hF).2
  have hidmap : st.clusters.map (fun c => c.id) = as.map AnnCluster.id :=
    forall₂_map_eq (fun c a hra => hra.1.symm) hF
  have hndas : (as.map AnnCluster.id).Nodup := hidmap ▸ hinv.1
  -- first pluck: position p
  set A := as.get ⟨p, hpa⟩ with hA
  have hRA : RA d (st.clusters.get ⟨p, hp⟩) A := hgets p hp hpa
  have hea : e.a = AnnCluster.id A := by
    rw [he]
    show (clAt st.clusters p).id = A.id
    rw [clAt_eq st.clusters p hp, hRA.1]
  have pluck1 : pluckId AnnCluster.id e.a as = some (A, as.eraseIdx p) := by
    rw [hea]
    exact pluckId_pos AnnCluster.id as p hpa hndas
  -- second pluck: position q - 1 of the erased list
  have hF1 : List.Forall₂ (RA d) (st.clusters.eraseIdx p) (as.eraseIdx p) :=
    forall₂_eraseIdx p hF
  have hq1c : q - 1 < (st.clusters.eraseIdx p).length := by
    rw [List.length_eraseIdx, if_pos hp]; omega
  have hq1a : q - 1 < (as.eraseIdx p).length := by
    rw [List.length_eraseIdx, if_pos hpa]; omega
  set B := (as.eraseIdx p).get ⟨q - 1, hq1a⟩ with hB
  have hgets1 := (List.forall₂_iff_get.1 hF1).2
  have hRB' : RA d ((st.clusters.eraseIdx p).get ⟨q - 1, hq1c⟩) B :=
    hgets1 (q - 1) hq1c hq1a
  have hgq : (st.clusters.eraseIdx p).get ⟨q - 1, hq1c⟩ = st.clusters.get ⟨q, hq⟩ := by
    rw [get_eraseIdx_of_ge st.clusters p (q - 1) hq1c (by omega) (by omega)]
    congr 1
    simp only [Fin.mk.injEq]
    omega
  have hRB : RA d (st.clusters.get ⟨q, hq⟩) B := hgq ▸ hRB'
  have hndas1 : ((as.eraseIdx p).map AnnCluster.id).Nodup :=
    ((List.eraseIdx_sublist _ _).map _).nodup hndas
  have heb : e.b = AnnCluster.id B := by
    rw [he]
    show (clAt st.clusters q).id = B.id
    rw [clAt_eq st.clusters q hq, hRB.1]
  have pluck2 : pluckId AnnCluster.id e.b (as.eraseIdx p) =
      some (B, (as.eraseIdx p).eraseIdx (q - 1)) := by
    rw [heb]
    exact pluckId_pos AnnCluster.id (as.eraseIdx p) (q - 1) hq1a hndas1
  -- assemble the annotator step
  refine ⟨⟨e.nid, A.members ++ B.members,
      A.sum + B.sum + crossSum d A.members B.members,
      A.cnt + B.cnt + A.members.length * B.members.length⟩,
    (as.eraseIdx p).eraseIdx (q - 1) ++
      [⟨e.nid, A.members ++ B.members,
        A.sum + B.sum + crossSum d A.members B.members,
        A.cnt + B.cnt + A.members.length * B.members.length⟩], ?_, ?_⟩
  · unfold annStep
    rw [pluck1]
    dsimp only
    rw [pluck2]
  · rw [hcl]
    refine forall₂_append_right (forall₂_eraseIdx (q - 1) hF1) ?_
    refine List.Forall₂.cons ?_ List.Forall₂.nil
    have hAm : A.members = (st.clusters.get ⟨p, hp⟩).members := hRA.2.1
    have hBm : B.members = (st.clusters.get ⟨q, hq⟩).members := hRB.2.1
    have hnida : e.nid = st.nextId := by rw [he]
    refine ⟨hnida, ?_, ?_, ?_⟩
    · show A.members ++ B.members = (clAt st.clusters p).members ++ (clAt st.clusters q).members
      rw [hAm, hBm, clAt_eq st.clusters p hp, clAt_eq st.clusters q hq]
    · show A.sum + B.sum + crossSum d A.members B.members =
        pairsSum d ((clAt st.clusters p).members ++ (clAt st.clusters q).members)
      rw [clAt_eq st.clusters p hp, clAt_eq st.clusters q hq, pairsSum_append,
        hRA.2.2.1, hRB.2.2.1, hAm, hBm]
      ring
    · show A.cnt + B.cnt + A.members.length * B.members.length =
        pairsCount ((clAt st.clusters p).members ++ (clAt st.clusters q).members)
      rw [clAt_eq st.clusters p hp, clAt_eq st.clusters q hq, pairsCount_append,
        hRA.2.2.2, hRB.2.2.2, hAm, hBm]
      omega

theorem annSim_run (d : Nat → Nat → ℚ) (L : Linkage) :
    ∀ (k : Nat) (st : EngState) (as : List AnnCluster),
      EngInv st → List.Forall₂ (RA d) st.clusters as →
      k + 1 ≤ st.clusters.length →
      ∃ asf ms, annRun d as (engineRun L k st).1 = some (asf, ms) ∧
        EngInv (engineRun L k st).2 ∧
        List.Forall₂ (RA d) (engineRun L k st).2.clusters asf ∧
        (engineRun L k st).2.clusters.length + k = st.clusters.length ∧
        (membersJoin (engineRun L k st).2.clusters).Perm (membersJoin st.clusters) ∧
        ms.length = k := by
  intro k
  induction k with
  | zero =>
      intro st as hinv hF _
      exact ⟨as, [], rfl, hinv, hF, rfl, List.Perm.refl _, rfl⟩
  | succ k ih =>
      intro st as hinv hF hk
      have h2 : 2 ≤ st.clusters.length := by omega
      obtain ⟨e, st', hstep⟩ := engStep_of_two h2
      have hrunEq : engineRun L (k + 1) st =
          (e :: (engineRun L k st').1, (engineRun L k st').2) := by
        show (match engStep L st with
          | none => ([], st)
          | some (e, st') =>
            let r := engineRun L k st'
            (e :: r.1, r.2)) = _
        rw [hstep]
      obtain ⟨c, as', hann, hF'⟩ := annSim_step d hinv hF hstep
      have hinv' := engStep_inv hinv hstep
      have hlen' := engStep_length hstep
      have hperm' := engStep_membersJoin hstep
      obtain ⟨asf, ms, hrun, hinvf, hFf, hlenf, hpermf, hmslen⟩ :=
        ih st' as' hinv' hF' (by omega)
      refine ⟨asf, (c.sum / (c.cnt : ℚ)) :: ms, ?_, ?_, ?_, ?_, ?_, ?_⟩
      · rw [hrunEq]
        show annRun d as (e :: (engineRun L k st').1) = _
        unfold annRun
        rw [hann]
        dsimp only
        rw [hrun]
      · rw [hrunEq]; exact hinvf
      · rw [hrunEq]; exact hFf
      · rw [hrunEq]
        show (engineRun L k st').2.clusters.length + (k + 1) = st.clusters.length
        omega
      · rw [hrunEq]
        exact hpermf.trans hperm'
      · simp [hmslen]

theorem flatten_map_singleton {α : Type} :
    ∀ l : List α, (l.map (fun i => [i])).flatten = l := by
  intro l
  induction l with
  | nil => rfl
  | cons x xs ih => simp [ih]

theorem init_clusters_length (m : DistanceMatrix) :
    (initState m).clusters.length = m.size := by
  simp [initState]

theorem init_inv (m : DistanceMatrix) : EngInv (initState m) := by
  constructor
  · have hmap : ((initState m).clusters.map (fun c => c.id)) = List.range m.size := by
      show (((List.range m.size).map (fun i => (⟨i, [i]⟩ : EngCluster))).map
        (fun c => c.id)) = _
      rw [List.map_map]
      exact List.map_id _
    rw [hmap]
    exact List.nodup_range _
  · intro c hc
    have : c ∈ (List.range m.size).map (fun i => (⟨i, [i]⟩ : EngCluster)) := hc
    rw [List.mem_map] at this
    obtain ⟨i, hi, rfl⟩ := this
    rw [List.mem_range] at hi
    exact hi

theorem init_forall₂ (m : DistanceMatrix) :
    List.Forall₂ (RA (fun i j => m.entry i j)) (initState m).clusters
      (annInit m.size) := by
  show List.Forall₂ _ ((List.range m.size).map (fun i => (⟨i, [i]⟩ : EngCluster)))
    ((List.range m.size).map (fun i => (⟨i, [i], 0, 0⟩ : AnnCluster)))
  apply forall₂_map_map
  intro i _
  exact ⟨rfl, rfl, by simp [pairsSum], by simp [pairsCount]⟩

theorem init_membersJoin (m : DistanceMatrix) :
    membersJoin (initState m).clusters = List.range m.size := by
  show membersJoin ((List.range m.size).map (fun i => (⟨i, [i]⟩ : EngCluster))) = _
  unfold membersJoin
  rw [List.map_map]
  exact flatten_map_singleton _

theorem validMatrix_iff (m : DistanceMatrix) :
    validMatrix m = true ↔ (m.symmetric ∧ m.nonneg ∧ 2 ≤ m.size) := by
  unfold validMatrix
  simp [Bool.and_eq_true, decide_eq_true_eq, and_assoc]


theorem directOffDiagSum_eq_fullSum (m : DistanceMatrix)
    (hdiag : ∀ i < m.size, m.entry i i = 0) :
    directOffDiagSum m = fullSum (fun i j => m.entry i j) (List.range m.size) := by
  unfold directOffDiagSum fullSum
  apply congrArg List.sum
  apply List.map_congr_left
  intro i hi
  apply congrArg List.sum
  apply List.map_congr_left
  intro j _
  by_cases hij : i = j
  · subst hij
    rw [if_pos rfl]
    show (0 : ℚ) = m.entry i i
    exact (hdiag i (List.mem_range.1 hi)).symm
  · rw [if_neg hij]

/-- C1: for every valid distance matrix (symmetric, zero diagonal,
non-negative, at least 2 entities) and every linkage criterion, the
BranchAnnotator's incrementally computed mean-distance value at the root
equals, exactly, the directly computed arithmetic mean of all pairwise
off-diagonal entries of the original matrix. -/
theorem C1_branch_annotator_root_mean (m : DistanceMatrix) (L : Linkage)
    (hval : validMatrix m = true)
    (hdiag : ∀ i < m.size, m.entry i i = 0) :
    annotRootMean m L = some (directRootMean m) := by
  obtain ⟨hsym, _, hn⟩ := (validMatrix_iff m).1 hval
  have hbound : (m.size - 1) + 1 ≤ (initState m).clusters.length := by
    rw [init_clusters_length]; omega
  obtain ⟨asf, ms, hrun, _, hFf, hlenf, hpermf, _⟩ :=
    annSim_run (fun i j => m.entry i j) L (m.size - 1) (initState m)
      (annInit m.size) (init_inv m) (init_forall₂ m) hbound
  rw [init_clusters_length] at hlenf
  have hflen : (engineRun L (m.size - 1) (initState m)).2.clusters.length = 1 := by
    omega
  obtain ⟨fc, hfc⟩ := List.length_eq_one.1 hflen
  rw [hfc] at hFf hpermf
  -- the annotator table is the matching singleton
  cases hFf with
  | cons hra htail =>
  cases htail with
  | nil =>
  rename_i rc
  -- compute through the definitions
  have hlink : linkage m L = .ok (engineRun L (m.size - 1) (initState m)).1 := by
    unfold linkage
    rw [if_pos hval]
  have hannEq : annotate m (engineRun L (m.size - 1) (initState m)).1 =
      some ([rc], ms) := hrun
  unfold annotRootMean
  rw [hlink]
  dsimp only
  rw [hannEq]
  dsimp only
  congr 1
  -- the root mean equals the direct mean
  have hperm : fc.members.Perm (List.range m.size) := by
    have h1 : membersJoin [fc] = fc.members := by simp [membersJoin]
    rw [h1, init_membersJoin m] at hpermf
    exact hpermf
  have hmem : ∀ i ∈ fc.members, i < m.size := by
    intro i hi
    exact List.mem_range.1 (hperm.mem_iff.1 hi)
  have hlsym : ∀ i ∈ fc.members, ∀ j ∈ fc.members,
      m.entry i j = m.entry j i := by
    intro i hi j hj
    exact hsym.2.2 i (hmem i hi) j (hmem j hj)
  have h2s : 2 * pairsSum (fun i j => m.entry i j) fc.members =
      fullSum (fun i j => m.entry i j) (List.range m.size) := by
    have hts := two_mul_pairsSum (fun i j => m.entry i j) fc.members hlsym
    have hdz : diagSum (fun i j => m.entry i j) fc.members = 0 :=
      diagSum_eq_zero _ _ (fun i hi => hdiag i (hmem i hi))
    rw [hdz, add_zero] at hts
    rw [hts]
    exact fullSum_perm _ hperm
  have h2c : 2 * pairsCount fc.members = m.size * (m.size - 1) := by
    rw [two_mul_pairsCount, hperm.length_eq, List.length_range]
  have hKpos : 2 ≤ m.size * (m.size - 1) := by
    have := Nat.mul_le_mul hn (show 1 ≤ m.size - 1 by omega)
    omega
  have hcnt_pos : 0 < pairsCount fc.members := by omega
  have hc0 : ((pairsCount fc.members : ℚ)) ≠ 0 := by
    exact_mod_cast Nat.pos_iff_ne_zero.1 hcnt_pos
  have hK : ((m.size * (m.size - 1) : Nat) : ℚ) ≠ 0 := by
    have : m.size * (m.size - 1) ≠ 0 := by omega
    exact_mod_cast this
  have h2cq : 2 * ((pairsCount fc.members : ℚ)) =
      ((m.size * (m.size - 1) : Nat) : ℚ) := by
    exact_mod_cast congrArg (fun k : Nat => (k : ℚ)) h2c
  rw [hra.2.2.1, hra.2.2.2]
  unfold directRootMean
  rw [directOffDiagSum_eq_fullSum m hdiag]
  rw [div_eq_div_iff hc0 hK]
  linear_combination ((pairsCount fc.members : ℚ)) * h2s -
    (pairsSum (fun i j => m.entry i j) fc.members) * h2cq

/-! ### TreeBuilder simulation and shape invariants -/


theorem treeSim_step (labels : List String) {L : Linkage} {st st' : EngState}
    {e : MergeEvent} {ts : List TCluster} (mean : ℚ)
    (hinv : EngInv st) (hF : List.Forall₂ (RT labels) st.clusters ts)
    (h : engStep L st = some (e, st')) :
    ∃ ts', treeStep ts e mean = some ts' ∧
      List.Forall₂ (RT labels) st'.clusters ts' := by
  obtain ⟨p, q, _, hpq, hq, he, hcl, _, _⟩ := engStep_spec h
  have hlen := hF.length_eq
  have hp : p < st.clusters.length := lt_trans hpq hq
  have hpa : p < ts.length := by omega
  have hgets := (List.forall₂_iff_get.1 hF).2
  have hidmap : st.clusters.map (fun c => c.id) = ts.map TCluster.id :=
    forall₂_map_eq (fun c a hra => hra.1.symm) hF
  have hndts : (ts.map TCluster.id).Nodup := hidmap ▸ hinv.1
  set A := ts.get ⟨p, hpa⟩ with hA
  have hRA : RT labels (st.clusters.get ⟨p, hp⟩) A := hgets p hp hpa
  have hea : e.a = TCluster.id A := by
    rw [he]
    show (clAt st.clusters p).id = A.id
    rw [clAt_eq st.clusters p hp, hRA.1]
  have pluck1 : pluckId TCluster.id e.a ts = some (A, ts.eraseIdx p) := by
    rw [hea]
    exact pluckId_pos TCluster.id ts p hpa hndts
  have hF1 : List.Forall₂ (RT labels) (st.clusters.eraseIdx p) (ts.eraseIdx p) :=
    forall₂_eraseIdx p hF
  have hq1c : q - 1 < (st.clusters.eraseIdx p).length := by
    rw [List.length_eraseIdx, if_pos hp]; omega
  have hq1a : q - 1 < (ts.eraseIdx p).length := by
    rw [List.length_eraseIdx, if_pos hpa]; omega
  set B := (ts.eraseIdx p).get ⟨q - 1, hq1a⟩ with hB
  have hgets1 := (List.forall₂_iff_get.1 hF1).2
  have hRB' : RT labels ((st.clusters.eraseIdx p).get ⟨q - 1, hq1c⟩) B :=
    hgets1 (q - 1) hq1c hq1a
  have hgq : (st.clusters.eraseIdx p).get ⟨q - 1, hq1c⟩ = st.clusters.get ⟨q, hq⟩ := by
    rw [get_eraseIdx_of_ge st.clusters p (q - 1) hq1c (by omega) (by omega)]
    congr 1
    simp only [Fin.mk.injEq]
    omega
  have hRB : RT labels (st.clusters.get ⟨q, hq⟩) B := hgq ▸ hRB'
  have hndts1 : ((ts.eraseIdx p).map TCluster.id).Nodup :=
    ((List.eraseIdx_sublist _ _).map _).nodup hndts
  have heb : e.b = TCluster.id B := by
    rw [he]
    show (clAt st.clusters q).id = B.id
    rw [clAt_eq st.clusters q hq, hRB.1]
  have pluck2 : pluckId TCluster.id e.b (ts.eraseIdx p) =
      some (B, (ts.eraseIdx p).eraseIdx (q - 1)) := by
    rw [heb]
    exact pluckId_pos TCluster.id (ts.eraseIdx p) (q - 1) hq1a hndts1
  refine ⟨(ts.eraseIdx p).eraseIdx (q - 1) ++
      [⟨e.nid, .node A.tree B.tree mean⟩], ?_, ?_⟩
  · unfold treeStep
    rw [pluck1]
    dsimp only
    rw [pluck2]
  · rw [hcl]
    refine forall₂_append_right (forall₂_eraseIdx (q - 1) hF1) ?_
    refine List.Forall₂.cons ?_ List.Forall₂.nil
    have hnida : e.nid = st.nextId := by rw [he]
    refine ⟨hnida, ?_⟩
    show leafLabels A.tree ++ leafLabels B.tree =
      ((clAt st.clusters p).members ++ (clAt st.clusters q).members).map _
    rw [clAt_eq st.clusters p hp, clAt_eq st.clusters q hq, List.map_append,
      hRA.2, hRB.2]

theorem treeSim_run (labels : List String) (L : Linkage) :
    ∀ (k : Nat) (st : EngState) (ts : List TCluster) (means : List ℚ),
      EngInv st → List.Forall₂ (RT labels) st.clusters ts →
      k + 1 ≤ st.clusters.length → means.length = k →
      ∃ tsf, treeRun ts ((engineRun L k st).1.zip means) = some tsf ∧
        List.Forall₂ (RT labels) (engineRun L k st).2.clusters tsf := by
  intro k
  induction k with
  | zero =>
      intro st ts means hinv hF _ hml
      rw [List.length_eq_zero.1 hml]
      exact ⟨ts, rfl, hF⟩
  | succ k ih =>
      intro st ts means hinv hF hk hml
      obtain ⟨mn, means', rfl⟩ : ∃ mn means', means = mn :: means' := by
        cases means with
        | nil => simp at hml
        | cons mn means' => exact ⟨mn, means', rfl⟩
      have h2 : 2 ≤ st.clusters.length := by omega
      obtain ⟨e, st', hstep⟩ := engStep_of_two h2
      have hrunEq : engineRun L (k + 1) st =
          (e :: (engineRun L k st').1, (engineRun L k st').2) := by
        show (match engStep L st with
          | none => ([], st)
          | some (e, st') =>
            let r := engineRun L k st'
            (e :: r.1, r.2)) = _
        rw [hstep]
      obtain ⟨ts', hts, hF'⟩ := treeSim_step labels mn hinv hF hstep
      have hinv' := engStep_inv hinv hstep
      have hlen' := engStep_length hstep
      obtain ⟨tsf, hrun, hFf⟩ :=
        ih st' ts' means' hinv' hF' (by omega) (by simpa using hml)
      refine ⟨tsf, ?_, ?_⟩
      · rw [hrunEq]
        show treeRun ts (((e :: (engineRun L k st').1)).zip (mn :: means')) = _
        rw [List.zip_cons_cons]
        unfold treeRun
        rw [hts]
        dsimp only
        rw [hrun]
      · rw [hrunEq]; exact hFf

theorem init_forall₂_tree (m : DistanceMatrix) :
    List.Forall₂ (RT m.labels) (initState m).clusters (treeInit m.labels) := by
  show List.Forall₂ _ ((List.range m.size).map (fun i => (⟨i, [i]⟩ : EngCluster)))
    ((List.range m.labels.length).map
      (fun i => (⟨i, .leaf (m.labels.getD i emptyStr)⟩ : TCluster)))
  apply forall₂_map_map
  intro i _
  exact ⟨rfl, rfl⟩

theorem leafCount_eq_length (t : KTree) : leafCount t = (leafLabels t).length := by
  induction t with
  | leaf s => rfl
  | node l r len ihl ihr => simp [leafCount, leafLabels, ihl, ihr]

theorem internalCount_add_one (t : KTree) : internalCount t + 1 = leafCount t := by
  induction t with
  | leaf s => rfl
  | node l r len ihl ihr =>
      simp only [internalCount, leafCount]
      omega

theorem map_getD_range :
    ∀ l : List String, (List.range l.length).map (fun i => l.getD i emptyStr) = l := by
  intro l
  induction l with
  | nil => rfl
  | cons x xs ih =>
      rw [List.length_cons, List.range_succ_eq_map, List.map_cons, List.map_map]
      congr 1

/-- Shared shape fact: on a valid matrix the whole clustering, annotation
and tree-building chain succeeds and the built tree's leaves are a
permutation of the matrix labels. -/
theorem buildTree_leaves (m : DistanceMatrix) (L : Linkage)
    (hval : validMatrix m = true) :
    ∃ evs asf means t, linkage m L = .ok evs ∧
      annotate m evs = some (asf, means) ∧
      buildTree m.labels evs means = some t ∧
      (leafLabels t).Perm m.labels := by
  obtain ⟨_, _, hn⟩ := (validMatrix_iff m).1 hval
  have hbound : (m.size - 1) + 1 ≤ (initState m).clusters.length := by
    rw [init_clusters_length]; omega
  obtain ⟨asf, ms, hrun, _, hFf, hlenf, hpermf, hmslen⟩ :=
    annSim_run (fun i j => m.entry i j) L (m.size - 1) (initState m)
      (annInit m.size) (init_inv m) (init_forall₂ m) hbound
  obtain ⟨tsf, htrun, hFt⟩ :=
    treeSim_run m.labels L (m.size - 1) (initState m) (treeInit m.labels) ms
      (init_inv m) (init_forall₂_tree m) hbound hmslen
  rw [init_clusters_length] at hlenf
  have hflen : (engineRun L (m.size - 1) (initState m)).2.clusters.length = 1 := by
    omega
  obtain ⟨fc, hfc⟩ := List.length_eq_one.1 hflen
  rw [hfc] at hFf hFt hpermf
  cases hFt with
  | cons hrt htail =>
  cases htail with
  | nil =>
  rename_i tc
  have hperm : fc.members.Perm (List.range m.size) := by
    have h1 : membersJoin [fc] = fc.members := by simp [membersJoin]
    rw [h1, init_membersJoin m] at hpermf
    exact hpermf
  have hlink : linkage m L = .ok (engineRun L (m.size - 1) (initState m)).1 := by
    unfold linkage
    rw [if_pos hval]
  have hbuild : buildTree m.labels (engineRun L (m.size - 1) (initState m)).1 ms =
      some tc.tree := by
    unfold buildTree
    rw [htrun]
  have hleaves : (leafLabels tc.tree).Perm m.labels := by
    rw [hrt.2]
    have hmp := hperm.map (fun i => m.labels.getD i emptyStr)
    have h2 : List.map (fun i => m.labels.getD i emptyStr) (List.range m.size) =
        m.labels := map_getD_range m.labels
    rw [h2] at hmp
    exact hmp
  exact ⟨_, asf, ms, tc.tree, hlink, hrun, hbuild, hleaves⟩

/-- C2: for every valid matrix with N entities and every linkage method,
the TreeBuilder output built from the N-1 merge events and their
annotations has exactly N leaves and N-1 internal nodes, and every original
entity label appears exactly once as a leaf. -/
theorem C2_treeBuilder_shape (m : DistanceMatrix) (L : Linkage)
    (hval : validMatrix m = true) (hnd : m.labels.Nodup) :
    ∃ evs asf means t, linkage m L = .ok evs ∧
      annotate m evs = some (asf, means) ∧
      buildTree m.labels evs means = some t ∧
      leafCount t = m.size ∧ internalCount t = m.size - 1 ∧
      ∀ lab ∈ m.labels, (leafLabels t).count lab = 1 := by
  obtain ⟨_, _, hn⟩ := (validMatrix_iff m).1 hval
  obtain ⟨evs, asf, means, t, hlink, hann, hbuild, hleaves⟩ :=
    buildTree_leaves m L hval
  have hlcount : leafCount t = m.size := by
    rw [leafCount_eq_length, hleaves.length_eq]
    rfl
  refine ⟨evs, asf, means, t, hlink, hann, hbuild, hlcount, ?_, ?_⟩
  · have := internalCount_add_one t
    omega
  · intro lab hlab
    rw [hleaves.count_eq]
    exact List.count_eq_one_of_mem hnd hlab

/-! ### Merge-pair choice and distance-update claims -/

/-- C3: whenever the engine performs a step, the merged pair is a pair of
distinct clusters whose inter-cluster distance is minimal over all current
pairs; among pairs attaining the minimum the lexicographically lowest
position pair is chosen, so the choice (and hence the whole merge
sequence, a pure function of matrix and method) is deterministic. -/
theorem C3_merge_choice (L : Linkage) (st : EngState)
    (h2 : 2 ≤ st.clusters.length) :
    ∃ (e : MergeEvent) (st' : EngState) (p : Nat) (q : Nat)
      (hp : p < st.clusters.length) (hq : q < st.clusters.length),
      engStep L st = some (e, st') ∧ p < q ∧
      e.a = (st.clusters.get ⟨p, hp⟩).id ∧ e.b = (st.clusters.get ⟨q, hq⟩).id ∧
      e.dist = st.dist e.a e.b ∧
      (∀ p' q', p' < q' → q' < st.clusters.length →
        e.dist ≤ pairDist st (p', q')) ∧
      (∀ p' q', p' < q' → q' < st.clusters.length →
        pairDist st (p', q') = e.dist →
        (p, q) = (p', q') ∨ pairLt (p, q) (p', q')) := by
  obtain ⟨e, st', hstep⟩ := engStep_of_two h2
  obtain ⟨p, q, hsel, hpq, hq, he, _, _, _⟩ := engStep_spec hstep
  have hp : p < st.clusters.length := lt_trans hpq hq
  have hed : e.dist = pairDist st (p, q) := by
    rw [he]
    rfl
  refine ⟨e, st', p, q, hp, hq, hstep, hpq, ?_, ?_, ?_, ?_, ?_⟩
  · rw [he, clAt_eq st.clusters p hp]
  · rw [he, clAt_eq st.clusters q hq]
  · rw [he]
  · intro p' q' hpq' hq'
    rw [hed]
    exact selectMin_le hsel (p', q') (mem_allPairs.2 ⟨hpq', hq'⟩)
  · intro p' q' hpq' hq' hdist
    rw [hed] at hdist
    exact selectMin_tie_lex (allPairs_sorted _) hsel (p', q')
      (mem_allPairs.2 ⟨hpq', hq'⟩) hdist

/-- C4: when clusters A and B merge, the updated distance from the merged
cluster to every other cluster C follows the selected criterion's rule:
max for complete linkage, the unweighted mean for weighted linkage
(WPGMA), and the size-weighted mean for average linkage (UPGMA). -/
theorem C4_linkage_update (L : Linkage) {st st' : EngState} {e : MergeEvent}
    (h : engStep L st = some (e, st')) :
    ∃ (p : Nat) (q : Nat)
      (hp : p < st.clusters.length) (hq : q < st.clusters.length),
      p < q ∧ e.a = (st.clusters.get ⟨p, hp⟩).id ∧
      e.b = (st.clusters.get ⟨q, hq⟩).id ∧
      ∀ c ∈ st'.clusters, c.id ≠ e.nid →
        (L = .complete →
          st'.dist e.nid c.id = max (st.dist e.a c.id) (st.dist e.b c.id)) ∧
        (L = .weighted →
          st'.dist e.nid c.id = (st.dist e.a c.id + st.dist e.b c.id) / 2) ∧
        (L = .average →
          st'.dist e.nid c.id =
            (((st.clusters.get ⟨p, hp⟩).members.length : ℚ) * st.dist e.a c.id +
              ((st.clusters.get ⟨q, hq⟩).members.length : ℚ) * st.dist e.b c.id) /
              (((st.clusters.get ⟨p, hp⟩).members.length : ℚ) +
                ((st.clusters.get ⟨q, hq⟩).members.length : ℚ))) := by
  obtain ⟨p, q, _, hpq, hq, he, _, hnid, hdist⟩ := engStep_spec h
  have hp : p < st.clusters.length := lt_trans hpq hq
  have hnide : e.nid = st.nextId := by rw [he]
  have hea : e.a = (clAt st.clusters p).id := by rw [he]
  have heb : e.b = (clAt st.clusters q).id := by rw [he]
  refine ⟨p, q, hp, hq, hpq, by rw [hea, clAt_eq st.clusters p hp],
    by rw [heb, clAt_eq st.clusters q hq], ?_⟩
  intro c _ hce
  have hcy : c.id ≠ st.nextId := by rw [← hnide]; exact hce
  have hupd := hdist c.id hcy
  rw [← hnide, ← hea, ← heb] at hupd
  rw [← clAt_eq st.clusters p hp, ← clAt_eq st.clusters q hq]
  refine ⟨?_, ?_, ?_⟩
  · rintro rfl
    rw [hupd]
    rfl
  · rintro rfl
    rw [hupd]
    rfl
  · rintro rfl
    rw [hupd]
    rfl

/-! ### Pipeline inversion lemmas -/

theorem pipeline_ok {m : DistanceMatrix} {mo : Option String} {s : String}
    (h : pipeline m mo = .ok s) :
    ∃ t, pipelineTree m mo = .ok t ∧ serializeNewick t = .ok s := by
  unfold pipeline at h
  cases ht : pipelineTree m mo with
  | error err => rw [ht] at h; simp [Bind.bind, Except.bind] at h
  | ok t =>
      rw [ht] at h
      simp only [Bind.bind, Except.bind] at h
      exact ⟨t, rfl, h⟩

theorem pipelineTree_ok {m : DistanceMatrix} {mo : Option String} {t : KTree}
    (h : pipelineTree m mo = .ok t) :
    ∃ L evs asf means, parseLinkage mo = .ok L ∧ linkage m L = .ok evs ∧
      annotate m evs = some (asf, means) ∧
      buildTree m.labels evs means = some t := by
  unfold pipelineTree at h
  cases hL : parseLinkage mo with
  | error err => rw [hL] at h; simp [Bind.bind, Except.bind] at h
  | ok L =>
      rw [hL] at h
      simp only [Bind.bind, Except.bind] at h
      cases hE : linkage m L with
      | error err => rw [hE] at h; simp [Except.bind] at h
      | ok evs =>
          rw [hE] at h
          dsimp only at h
          cases hA : annotate m evs with
          | none => rw [hA] at h; simp at h
          | some pr =>
              obtain ⟨asf, means⟩ := pr
              rw [hA] at h
              dsimp only at h
              cases hB : buildTree m.labels evs means with
              | none => rw [hB] at h; simp at h
              | some t' =>
                  rw [hB] at h
                  dsimp only at h
                  injection h with h'
                  subst h'
                  exact ⟨L, evs, asf, means, rfl, hE, hA, hB⟩

theorem fromFile_ok {m : DistanceMatrix} {recs : List AnnotationRecord}
    {mo : Option String} {nw tbl : String}
    (h : fromFile m recs mo = .ok (nw, tbl)) :
    ∃ rows0, pipeline m mo = .ok nw ∧
      annotationTable m.labels recs = .ok rows0 ∧ tbl = renderTable rows0 := by
  unfold fromFile at h
  cases hp : pipeline m mo with
  | error err => rw [hp] at h; simp [Bind.bind, Except.bind] at h
  | ok nw0 =>
      rw [hp] at h
      simp only [Bind.bind, Except.bind] at h
      cases ha : annotationTable m.labels recs with
      | error err => rw [ha] at h; simp [Except.bind] at h
      | ok rows0 =>
          rw [ha] at h
          dsimp only at h
          injection h with h'
          rw [Prod.mk.injEq] at h'
          exact ⟨rows0, h'.1 ▸ rfl, rfl, h'.2.symm⟩

/-! ### Determinism, validation, and method-name claims -/

/-- C5: the pipeline is a pure function of the matrix and the method name:
two successful runs on the same inputs yield the identical Newick string. -/
theorem C5_pipeline_deterministic (m : DistanceMatrix) (mo : Option String)
    (s₁ s₂ : String) (h₁ : pipeline m mo = .ok s₁)
    (h₂ : pipeline m mo = .ok s₂) : s₁ = s₂ := by
  rw [h₁] at h₂
  injection h₂

/-- C6: the LinkageEngine fails with InvalidInputError exactly when the
matrix is not symmetric, has a negative entry, or has fewer than 2
entities; and on such a matrix the pipeline produces no output at all. -/
theorem C6_invalid_input (m : DistanceMatrix) (L : Linkage) :
    (linkage m L = .error .invalidInputError ↔
      ¬(m.symmetric ∧ m.nonneg ∧ 2 ≤ m.size)) ∧
    (¬(m.symmetric ∧ m.nonneg ∧ 2 ≤ m.size) →
      ∀ mo s, pipeline m mo ≠ .ok s) := by
  have hvalid : validMatrix m = true ↔ (m.symmetric ∧ m.nonneg ∧ 2 ≤ m.size) :=
    validMatrix_iff m
  constructor
  · by_cases hv : validMatrix m = true
    · have hprops := hvalid.1 hv
      unfold linkage
      rw [if_pos hv]
      simp [hprops]
    · have hprops : ¬(m.symmetric ∧ m.nonneg ∧ 2 ≤ m.size) := fun hp =>
        hv (hvalid.2 hp)
      unfold linkage
      rw [if_neg hv]
      simp [hprops]
  · intro hbad mo s hok
    have hv : ¬(validMatrix m = true) := fun hv => hbad (hvalid.1 hv)
    obtain ⟨t, htree, _⟩ := pipeline_ok hok
    obtain ⟨L', evs, _, _, _, hlink, _, _⟩ := pipelineTree_ok htree
    unfold linkage at hlink
    rw [if_neg hv] at hlink
    exact absurd hlink (by simp)

/-- C7: the entry point accepts exactly the five method names, defaulting
to ward when none is given; any other name fails with
UnsupportedLinkageError and the pipeline produces no output for it. -/
theorem C7_linkage_names :
    parseLinkage none = .ok .ward ∧
    parseLinkage (some ("ward")) = .ok .ward ∧
    parseLinkage (some ("complete")) = .ok .complete ∧
    parseLinkage (some ("weighted")) = .ok .weighted ∧
    parseLinkage (some ("average")) = .ok .average ∧
    parseLinkage (some ("centroid")) = .ok .centroid ∧
    ∀ s, s ∉ ["ward", "complete", "weighted", "average", "centroid"] →
      parseLinkage (some s) = .error .unsupportedLinkageError ∧
      ∀ m, pipeline m (some s) = .error .unsupportedLinkageError := by
  refine ⟨rfl, by rfl, by rfl, by rfl, by rfl, by rfl, ?_⟩
  intro s hs
  have h1 : ¬(s = "ward") := fun he => hs (by rw [he]; simp)
  have h2 : ¬(s = "complete") := fun he => hs (by rw [he]; simp)
  have h3 : ¬(s = "weighted") := fun he => hs (by rw [he]; simp)
  have h4 : ¬(s = "average") := fun he => hs (by rw [he]; simp)
  have h5 : ¬(s = "centroid") := fun he => hs (by rw [he]; simp)
  have hperr : parseLinkage (some s) = .error .unsupportedLinkageError := by
    unfold parseLinkage
    dsimp only
    rw [if_neg h1, if_neg h2, if_neg h3, if_neg h4, if_neg h5]
  refine ⟨hperr, ?_⟩
  intro m
  unfold pipeline pipelineTree
  rw [hperr]
  rfl

/-! ### Annotation mapping and Newick label escaping -/

theorem annotationMapper_missing (labels : List String)
    (recs : List AnnotationRecord)
    (h : ∃ l ∈ labels, ∀ r ∈ recs, r.label ≠ l) :
    ∃ l, l ∈ labels ∧ (∀ r ∈ recs, r.label ≠ l) ∧
      annotationMapper labels recs = .error (.missingAnnotationError l) := by
  induction labels with
  | nil =>
      obtain ⟨l, hl, _⟩ := h
      simp at hl
  | cons l ls ih =>
      obtain ⟨l0, hl0, hnone⟩ := h
      cases hfind : recs.find? (fun r => r.label == l) with
      | none =>
          refine ⟨l, List.mem_cons_self _ _, ?_, ?_⟩
          · intro r hr
            have := List.find?_eq_none.1 hfind r hr
            simpa using this
          · unfold annotationMapper
            rw [hfind]
      | some r =>
          have hrl : r.label = l := by
            have hpl := List.find?_some hfind
            simpa using hpl
          have hrm : r ∈ recs := List.mem_of_find?_eq_some hfind
          rcases List.mem_cons.1 hl0 with rfl | hl0'
          · exact absurd hrl (hnone r hrm)
          · obtain ⟨l', hl'm, hl'none, herr⟩ := ih ⟨l0, hl0', hnone⟩
            refine ⟨l', List.mem_cons_of_mem _ hl'm, hl'none, ?_⟩
            unfold annotationMapper
            rw [hfind]
            dsimp only
            rw [herr]
            rfl

theorem annotationMapper_names (labels : List String)
    (recs : List AnnotationRecord) :
    ∀ t, annotationMapper labels recs = .ok t →
      t.map (fun r => r.1) = labels := by
  induction labels with
  | nil =>
      intro t ht
      injection ht with h'
      rw [← h']
      rfl
  | cons l ls ih =>
      intro t ht
      cases hfind : recs.find? (fun r => r.label == l) with
      | none =>
          unfold annotationMapper at ht
          rw [hfind] at ht
          simp at ht
      | some r =>
          unfold annotationMapper at ht
          rw [hfind] at ht
          dsimp only at ht
          cases hrec : annotationMapper ls recs with
          | error err =>
              rw [hrec] at ht
              simp [Except.map] at ht
          | ok t' =>
              rw [hrec] at ht
              dsimp only [Except.map] at ht
              injection ht with h'
              rw [← h', List.map_cons, ih t' hrec]

/-- C8: the AnnotationMapper fails with MissingAnnotationError naming an
offending label whenever some matrix label has no metadata record (exact,
case-sensitive match), and on success emits exactly one record per label
in order: nothing is silently omitted. -/
theorem C8_annotation_mapper (labels : List String) (recs : List AnnotationRecord) :
    ((∃ l ∈ labels, ∀ r ∈ recs, r.label ≠ l) →
      ∃ l, l ∈ labels ∧ (∀ r ∈ recs, r.label ≠ l) ∧
        annotationMapper labels recs = .error (.missingAnnotationError l)) ∧
    ∀ t, annotationMapper labels recs = .ok t →
      t.map (fun r => r.1) = labels :=
  ⟨annotationMapper_missing labels recs, annotationMapper_names labels recs⟩

theorem parseQuoted_dq (cs : List Char) :
    parseQuoted (dq cs ++ ['\'']) = some cs := by
  induction cs with
  | nil => rfl
  | cons c cs ih =>
      by_cases hc : c = '\''
      · subst hc
        have hdq : dq ('\'' :: cs) = '\'' :: '\'' :: dq cs := by
          show (if ('\'' : Char) = '\'' then '\'' :: '\'' :: dq cs
            else '\'' :: dq cs) = '\'' :: '\'' :: dq cs
          rw [if_pos rfl]
        rw [hdq, List.cons_append, List.cons_append]
        unfold parseQuoted
        rw [if_pos rfl]
        dsimp only
        rw [if_pos rfl, ih]
        rfl
      · have hdq : dq (c :: cs) = c :: dq cs := by
          show (if c = '\'' then c :: c :: dq cs else c :: dq cs) = c :: dq cs
          rw [if_neg hc]
        rw [hdq, List.cons_append]
        unfold parseQuoted
        rw [if_neg hc, ih]
        rfl

/-- C9: a label that needs quoting is rendered wrapped in single quotes
with internal quotes doubled, the rendered token reparses to the identical
original label, and the serializer accepts it (no InvalidLabelError). -/
theorem C9_label_roundtrip (s : String) (hq : needsQuote s = true) :
    escapeLabel s = String.mk (quoteChar :: dq s.data ++ [quoteChar]) ∧
    parseLabelStr (escapeLabel s) = some s ∧
    serLabel s = .ok (escapeLabel s) := by
  have hesc : escapeLabel s = String.mk (quoteChar :: dq s.data ++ [quoteChar]) := by
    unfold escapeLabel
    rw [if_pos hq]
  have hparse : parseLabelStr (escapeLabel s) = some s := by
    rw [hesc]
    show Option.map String.mk (parseQuoted (dq s.data ++ ['\''])) = some s
    rw [parseQuoted_dq]
    rfl
  refine ⟨hesc, hparse, ?_⟩
  unfold serLabel
  rw [if_pos hparse]

/-! ### The annotation table written alongside the tree -/

theorem annotationTable_ok {labels : List String} {recs : List AnnotationRecord}
    {rows0 : List (List String)}
    (h : annotationTable labels recs = .ok rows0) :
    ∃ tt, annotationMapper labels recs = .ok tt ∧
      rows0 = ["kinase.klifs_name", "kinase.group", "kinase.family"] ::
        tt.map (fun r => [r.1, r.2.1, r.2.2]) := by
  unfold annotationTable at h
  cases hm : annotationMapper labels recs with
  | error err =>
      rw [hm] at h
      simp [Except.map] at h
  | ok tt =>
      rw [hm] at h
      dsimp only [Except.map] at h
      injection h with h'
      exact ⟨tt, rfl, h'.symm⟩

/-- C10: on every successful run, the annotation table written next to the
tree is a tab-separated table with header kinase.klifs_name, kinase.group,
kinase.family, holding one three-column record per leaf, and every
kinase.klifs_name value is character-for-character a tip label of the tree
serialized into the Newick output. -/
theorem C10_annotation_table (m : DistanceMatrix) (recs : List AnnotationRecord)
    (mo : Option String) (hval : validMatrix m = true)
    (nw tbl : String) (h : fromFile m recs mo = .ok (nw, tbl)) :
    ∃ t rows,
      pipelineTree m mo = .ok t ∧ serializeNewick t = .ok nw ∧
      tbl = renderTable
        (["kinase.klifs_name", "kinase.group", "kinase.family"] :: rows) ∧
      rows.length = leafCount t ∧
      ∀ row ∈ rows, ∃ name g f, row = [name, g, f] ∧ name ∈ leafLabels t := by
  obtain ⟨rows0, hpip, hat, htbl⟩ := fromFile_ok h
  obtain ⟨t, htree, hser⟩ := pipeline_ok hpip
  obtain ⟨tt, hmap, hrows0⟩ := annotationTable_ok hat
  have hnames : tt.map (fun r => r.1) = m.labels :=
    annotationMapper_names m.labels recs tt hmap
  -- identify the pipeline's tree with the tree of the shape lemma
  obtain ⟨L, evs, asf, means, hpl, hlink, hann, hbuild⟩ := pipelineTree_ok htree
  obtain ⟨evs₀, asf₀, means₀, t₀, hlink₀, hann₀, hbuild₀, hleaves₀⟩ :=
    buildTree_leaves m L hval
  have hevs : evs₀ = evs := by
    rw [hlink] at hlink₀
    injection hlink₀ with h'
    exact h'.symm
  subst hevs
  have hpr : asf₀ = asf ∧ means₀ = means := by
    rw [hann] at hann₀
    injection hann₀ with h'
    rw [Prod.mk.injEq] at h'
    exact ⟨h'.1.symm, h'.2.symm⟩
  obtain ⟨rfl, rfl⟩ := hpr
  have ht₀ : t₀ = t := by
    rw [hbuild] at hbuild₀
    injection hbuild₀ with h'
    exact h'.symm
  subst ht₀
  have hleaves : (leafLabels t₀).Perm m.labels := hleaves₀
  refine ⟨t₀, tt.map (fun r => [r.1, r.2.1, r.2.2]), htree, hser, ?_, ?_, ?_⟩
  · rw [htbl, hrows0]
  · rw [List.length_map, leafCount_eq_length, hleaves.length_eq]
    have : (tt.map (fun r => r.1)).length = m.labels.length :=
      congrArg List.length hnames
    rw [List.length_map] at this
    exact this
  · intro row hrow
    rw [List.mem_map] at hrow
    obtain ⟨r, hr, rfl⟩ := hrow
    refine ⟨r.1, r.2.1, r.2.2, rfl, ?_⟩
    have hmem : r.1 ∈ m.labels := by
      rw [← hnames]
      exact List.mem_map.2 ⟨r, hr, rfl⟩
    exact hleaves.mem_iff.2 hmem


/-! ### Witnesses -/

theorem C1_witness :
    validMatrix mEx3 = true ∧ (∀ i < mEx3.size, mEx3.entry i i = 0) ∧
      annotRootMean mEx3 .average = some (directRootMean mEx3) :=
  ⟨by decide, by decide,
    C1_branch_annotator_root_mean mEx3 .average (by decide) (by decide)⟩

theorem C2_witness :
    validMatrix mEx3 = true ∧ mEx3.labels.Nodup ∧
      ∃ evs asf means t, linkage mEx3 .ward = .ok evs ∧
        annotate mEx3 evs = some (asf, means) ∧
        buildTree mEx3.labels evs means = some t ∧
        leafCount t = mEx3.size ∧ internalCount t = mEx3.size - 1 ∧
        ∀ lab ∈ mEx3.labels, (leafLabels t).count lab = 1 :=
  ⟨by decide, by decide, C2_treeBuilder_shape mEx3 .ward (by decide) (by decide)⟩

theorem C3_witness :
    2 ≤ (initState mEx3).clusters.length ∧
      ∃ (e : MergeEvent) (st' : EngState) (p : Nat) (q : Nat)
        (hp : p < (initState mEx3).clusters.length)
        (hq : q < (initState mEx3).clusters.length),
        engStep .complete (initState mEx3) = some (e, st') ∧ p < q ∧
        e.a = ((initState mEx3).clusters.get ⟨p, hp⟩).id ∧
        e.b = ((initState mEx3).clusters.get ⟨q, hq⟩).id ∧
        e.dist = (initState mEx3).dist e.a e.b ∧
        (∀ p' q', p' < q' → q' < (initState mEx3).clusters.length →
          e.dist ≤ pairDist (initState mEx3) (p', q')) ∧
        (∀ p' q', p' < q' → q' < (initState mEx3).clusters.length →
          pairDist (initState mEx3) (p', q') = e.dist →
          (p, q) = (p', q') ∨ pairLt (p, q) (p', q')) :=
  ⟨by decide, C3_merge_choice .complete (initState mEx3) (by decide)⟩

theorem C4_witness :
    ∃ (e : MergeEvent) (st' : EngState),
      engStep .average (initState mEx3) = some (e, st') ∧
      ∃ (p : Nat) (q : Nat)
        (hp : p < (initState mEx3).clusters.length)
        (hq : q < (initState mEx3).clusters.length),
        p < q ∧ e.a = ((initState mEx3).clusters.get ⟨p, hp⟩).id ∧
        e.b = ((initState mEx3).clusters.get ⟨q, hq⟩).id ∧
        ∀ c ∈ st'.clusters, c.id ≠ e.nid →
          (Linkage.average = Linkage.complete →
            st'.dist e.nid c.id =
              max ((initState mEx3).dist e.a c.id)
                ((initState mEx3).dist e.b c.id)) ∧
          (Linkage.average = Linkage.weighted →
            st'.dist e.nid c.id =
              ((initState mEx3).dist e.a c.id +
                (initState mEx3).dist e.b c.id) / 2) ∧
          (Linkage.average = Linkage.average →
            st'.dist e.nid c.id =
              ((((initState mEx3).clusters.get ⟨p, hp⟩).members.length : ℚ) *
                  (initState mEx3).dist e.a c.id +
                (((initState mEx3).clusters.get ⟨q, hq⟩).members.length : ℚ) *
                  (initState mEx3).dist e.b c.id) /
                ((((initState mEx3).clusters.get ⟨p, hp⟩).members.length : ℚ) +
                  (((initState mEx3).clusters.get ⟨q, hq⟩).members.length : ℚ))) := by
  obtain ⟨e, st', h⟩ :
      ∃ e st', engStep .average (initState mEx3) = some (e, st') :=
    engStep_of_two (by decide)
  exact ⟨e, st', h, C4_linkage_update .average h⟩

theorem C5_witness :
    ∃ s, pipeline mEx2 none = .ok s ∧
      ∀ s₂, pipeline mEx2 none = .ok s₂ → s = s₂ := by
  obtain ⟨s, hs⟩ : ∃ s, pipeline mEx2 none = .ok s := ⟨_, rfl⟩
  exact ⟨s, hs, fun s₂ h₂ => C5_pipeline_deterministic mEx2 none s s₂ hs h₂⟩

theorem C6_witness :
    linkage mBad .ward = .error .invalidInputError ∧
      pipeline mBad none ≠ .ok ("x") :=
  ⟨(C6_invalid_input mBad .ward).1.mpr (by decide),
    fun hok => (C6_invalid_input mBad .ward).2 (by decide) none _ hok⟩

theorem C7_witness :
    (("single" : String) ∉ ["ward", "complete", "weighted", "average", "centroid"]) ∧
      parseLinkage (some ("single")) = .error .unsupportedLinkageError ∧
      pipeline mEx2 (some ("single")) = .error .unsupportedLinkageError :=
  ⟨by decide, (C7_linkage_names.2.2.2.2.2.2 ("single") (by decide)).1,
    (C7_linkage_names.2.2.2.2.2.2 ("single") (by decide)).2 mEx2⟩

theorem C8_witness :
    (∃ l ∈ (["X1"] : List String),
        ∀ r ∈ ([] : List AnnotationRecord), r.label ≠ l) ∧
      ∃ l, l ∈ (["X1"] : List String) ∧
        (∀ r ∈ ([] : List AnnotationRecord), r.label ≠ l) ∧
        annotationMapper ["X1"] [] = .error (.missingAnnotationError l) :=
  ⟨by decide, (C8_annotation_mapper ["X1"] []).1 (by decide)⟩

theorem C9_witness :
    needsQuote ("My Kinase, 2") = true ∧
      (escapeLabel ("My Kinase, 2") =
        String.mk (quoteChar :: dq (String.data ("My Kinase, 2")) ++ [quoteChar]) ∧
      parseLabelStr (escapeLabel ("My Kinase, 2")) = some ("My Kinase, 2") ∧
      serLabel ("My Kinase, 2") = .ok (escapeLabel ("My Kinase, 2"))) :=
  ⟨by decide, C9_label_roundtrip ("My Kinase, 2") (by decide)⟩

theorem C10_witness :
    validMatrix mEx2 = true ∧
      ∃ nw tbl, fromFile mEx2 recsEx none = .ok (nw, tbl) ∧
      ∃ t rows,
        pipelineTree mEx2 none = .ok t ∧ serializeNewick t = .ok nw ∧
        tbl = renderTable
          (["kinase.klifs_name", "kinase.group", "kinase.family"] :: rows) ∧
        rows.length = leafCount t ∧
        ∀ row ∈ rows, ∃ name g f, row = [name, g, f] ∧ name ∈ leafLabels t := by
  obtain ⟨pr, h⟩ : ∃ pr, fromFile mEx2 recsEx none = .ok pr := ⟨_, rfl⟩
  have h' : fromFile mEx2 recsEx none = .ok (pr.1, pr.2) := h
  exact ⟨by decide, pr.1, pr.2, h',
    C10_annotation_table mEx2 recsEx none (by decide) pr.1 pr.2 h'⟩

end Kissim
